import Mathlib

/-!
Verification of the derivation-chain subsystem of the uv resolver
(crates/uv-resolver/src/resolver/derivation.rs).

The development shallowly embeds the data model (`DerivationStep`,
`DerivationChain`), the resolution-graph finder `DerivationChain.from_graph`
(a breadth-first search over reversed dependency edges) and the solver-state
finder `DerivationChain.from_state` (a recursive backtracking search over
"derived from dependency" incompatibility records), and proves the spec's
testable properties about them.

Modelling conventions:
- `PackageName` and `Version` are opaque totally-compared values, embedded
  as `String`.
- The resolution graph is a node list (indices are petgraph node ids) plus
  a list of directed edges `(dependent, dependency)`.  `petgraph`
  guarantees edges reference existing nodes; this is the `WFEdges`
  predicate, assumed where needed.
- The Rust BFS loop carries no fuel; the embedding uses an explicit fuel
  parameter together with a proved bound (`bfsBound`) at which the result
  stabilises, so that `fromGraph` is total and computable while provably
  agreeing with the unbounded loop.
- The panic of the `.expect(..)` on a missing target distribution is
  embedded as `Except.error` with the panic message.
- The solver-state search in Rust recurses without a visited set; its
  termination relies on the solver's acyclicity invariant.  The embedding
  uses fuel, where `none` marks fuel exhaustion (unreachable under the
  acyclicity invariant, expressed by a rank function `Ranked`).
-/

namespace UvDerivation

abbrev PackageName := String

abbrev Version := String

/-- A step in a derivation chain: the name and version of one package. -/
structure DerivationStep where
  name : PackageName
  version : Version
deriving DecidableEq, Repr

/-- A chain of derivation steps from the root package to the current package
(`struct DerivationChain(Vec<DerivationStep>)`). -/
structure DerivationChain where
  steps : List DerivationStep
deriving DecidableEq, Repr

/-- `FromIterator<DerivationStep> for DerivationChain`: collect a sequence of
steps into a chain. -/
def DerivationChain.fromSteps (l : List DerivationStep) : DerivationChain :=
  DerivationChain.mk l

/-- `DerivationChain::len`. -/
def DerivationChain.len (c : DerivationChain) : Nat :=
  c.steps.length

/-- `DerivationChain::is_empty`. -/
def DerivationChain.isEmpty (c : DerivationChain) : Bool :=
  c.steps.isEmpty

/-- `DerivationChain::iter` (borrowing iteration over the steps). -/
def DerivationChain.iter (c : DerivationChain) : List DerivationStep :=
  c.steps

/-- `IntoIterator for DerivationChain` (consuming iteration over the steps). -/
def DerivationChain.intoIter (c : DerivationChain) : List DerivationStep :=
  c.steps

/-- `Display for DerivationStep`: `write!(f, "{}=={}", self.name, self.version)`. -/
def DerivationStep.display (s : DerivationStep) : String :=
  s.name ++ "==" ++ s.version

/-- The indexed rendering loop of `Display for DerivationChain`: for each
`(idx, step)` of `enumerate`, write `" -> "` when `idx > 0`, then
`name==version`. -/
def displayFrom (idx : Nat) : List DerivationStep → String
  | [] => ""
  | s :: rest =>
    (if idx > 0 then " -> " else "") ++ s.name ++ "==" ++ s.version ++ displayFrom (idx + 1) rest

/-- `Display for DerivationChain`. -/
def DerivationChain.display (c : DerivationChain) : String :=
  displayFrom 0 c.steps

/-- Modelled from the spec's words (for the rendering refinement claim):
"steps joined by `\x22 -> \x22`". -/
def joinSep (sep : String) : List String → String
  | [] => ""
  | [x] => x
  | x :: y :: xs => x ++ sep ++ joinSep sep (y :: xs)

/-! ## The resolution graph (`ResolutionGraph` / petgraph) -/

/-- The fields of `AnnotatedDist` relevant to the finder: the identity of the
resolved distribution (standing for `DistRef` equality), whether the resolved
distribution is `ResolvedDist::Installable`, and the package name/version. -/
structure AnnotatedDist where
  distId : Nat
  installable : Bool
  name : PackageName
  version : Version
deriving DecidableEq, Repr

/-- `ResolutionGraphNode`: the distinguished `Root` node or a distribution
node. -/
inductive ResolutionGraphNode where
  | root
  | dist (d : AnnotatedDist)
deriving DecidableEq, Repr

/-- The finished resolution graph: nodes indexed by position, and directed
edges running from a dependent to each of its dependencies. -/
structure ResolutionGraph where
  nodes : List ResolutionGraphNode
  edges : List (Nat × Nat)
deriving DecidableEq, Repr

/-- petgraph's structural guarantee: every edge references existing nodes. -/
def ResolutionGraph.WFEdges (g : ResolutionGraph) : Prop :=
  ∀ e ∈ g.edges, e.1 < g.nodes.length ∧ e.2 < g.nodes.length

instance (g : ResolutionGraph) : Decidable g.WFEdges := by
  unfold ResolutionGraph.WFEdges
  infer_instance

/-- `graph.petgraph.neighbors_directed(node, Direction::Incoming)`: the sources
of all edges into `n`, i.e. the nodes that depend on `n`. -/
def incomingNeighbors (g : ResolutionGraph) (n : Nat) : List Nat :=
  (g.edges.filter (fun e => e.2 == n)).map (fun e => e.1)

/-- The predicate of the `find` in `from_graph`: node `i` carries an
installable distribution matching the target reference. -/
def matchesTarget (g : ResolutionGraph) (target : Nat) (i : Nat) : Bool :=
  match g.nodes[i]? with
  | some (ResolutionGraphNode.dist d) => d.installable && d.distId == target
  | _ => false

/-- `graph.petgraph.node_indices().find(..)` of `from_graph`. -/
def findTargetNode (g : ResolutionGraph) (target : Nat) : Option Nat :=
  (List.range g.nodes.length).find? (matchesTarget g target)

/-- A queued BFS item: a node index and the partial path accumulated so far. -/
abbrev QEntry := Nat × List DerivationStep

/-- The number of graph node indices not yet in the seen set. -/
def countUnseen (g : ResolutionGraph) (seen : List Nat) : Nat :=
  ((List.range g.nodes.length).filter (fun i => decide (i ∉ seen))).length

/-- Fuel sufficient for the BFS loop to run to completion from the given
state: queued items plus one expansion (of at most `edges.length` pushes) per
unseen node, plus the final dequeue test. -/
def bfsBound (g : ResolutionGraph) (queue : List QEntry) (seen : List Nat) : Nat :=
  queue.length + countUnseen g seen * g.edges.length + 1

/-- The BFS loop body of `from_graph` (`while let Some((node, mut path)) =
queue.pop_front()`), with explicit fuel.  `none` is fuel exhaustion (proved
unreachable at `bfsBound`), `some none` is queue exhaustion (the Rust loop
falling through to `None`), `some (some steps)` is the `Root` return. -/
def bfsAux (g : ResolutionGraph) : Nat → List QEntry → List Nat → Option (Option (List DerivationStep))
  | 0, _, _ => none
  | _ + 1, [], _ => some none
  | fuel + 1, (n, p) :: rest, seen =>
    if n ∈ seen then
      bfsAux g fuel rest seen
    else
      match g.nodes[n]? with
      | none => bfsAux g fuel rest (n :: seen)
      | some ResolutionGraphNode.root => some (some p.reverse.dropLast)
      | some (ResolutionGraphNode.dist d) =>
        bfsAux g fuel
          (rest ++ (incomingNeighbors g n).map (fun m => (m, p ++ [DerivationStep.mk d.name d.version])))
          (n :: seen)

/-- `DerivationChain::from_graph`.  The `.expect(..)` panic on a missing
target distribution is embedded as `Except.error` carrying the panic
message. -/
def fromGraph (g : ResolutionGraph) (target : Nat) : Except String (Option DerivationChain) :=
  match findTargetNode g target with
  | none => Except.error "every distribution in the resolution graph should be present"
  | some t =>
    match bfsAux g (bfsBound g [(t, [])] []) [(t, [])] [] with
    | none => Except.error "bfs fuel exhausted"
    | some none => Except.ok none
    | some (some steps) => Except.ok (some (DerivationChain.fromSteps steps))

/-! ## Walk predicates over the resolution graph -/

/-- `Reaches g t x k`: there is a walk of `k` edges from `t` to `x`, each step
moving from a node to one of its incoming neighbors (a node depending on it). -/
inductive Reaches (g : ResolutionGraph) (t : Nat) : Nat → Nat → Prop where
  | refl : Reaches g t t 0
  | tail {b c : Nat} {k : Nat} : Reaches g t b k → (c, b) ∈ g.edges → Reaches g t c (k + 1)

/-- Node `n` is the `Root` node of the graph. -/
def isRootNode (g : ResolutionGraph) (n : Nat) : Prop :=
  g.nodes[n]? = some ResolutionGraphNode.root

/-- There is an ancestry walk of `k` edges from `t` back to a `Root` node. -/
def ReachRoot (g : ResolutionGraph) (t : Nat) (k : Nat) : Prop :=
  ∃ r, Reaches g t r k ∧ isRootNode g r

/-- Like `Reaches`, but every interior node of the walk is not a `Root` node. -/
inductive ReachesNR (g : ResolutionGraph) (t : Nat) : Nat → Nat → Prop where
  | refl : ReachesNR g t t 0
  | tail {b c : Nat} {k : Nat} :
      ReachesNR g t b k → ¬ isRootNode g b → (c, b) ∈ g.edges → ReachesNR g t c (k + 1)

/-- The derivation step displayed by a graph node (meaningful on distribution
nodes only). -/
def nodeStep (g : ResolutionGraph) (n : Nat) : DerivationStep :=
  match g.nodes[n]? with
  | some (ResolutionGraphNode.dist d) => DerivationStep.mk d.name d.version
  | _ => DerivationStep.mk "" ""

/-- The walk underlying a BFS queue entry: from the target `t`, through the
distinct distribution nodes `ys` (in expansion order, carrying steps `p`),
to the entry's node. -/
inductive EntryWalkL (g : ResolutionGraph) (t : Nat) : Nat → List Nat → List DerivationStep → Prop where
  | base : EntryWalkL g t t [] []
  | step {m n : Nat} {ys : List Nat} {p : List DerivationStep} {d : AnnotatedDist} :
      EntryWalkL g t m ys p → m ∉ ys →
      g.nodes[m]? = some (ResolutionGraphNode.dist d) → (n, m) ∈ g.edges →
      EntryWalkL g t n (ys ++ [m]) (p ++ [DerivationStep.mk d.name d.version])

/-- The BFS loop invariant relating a queue and seen set to the graph. -/
structure BfsInv (g : ResolutionGraph) (t : Nat) (queue : List QEntry) (seen : List Nat) : Prop where
  entries : ∀ e ∈ queue, ∃ ys, EntryWalkL g t e.1 ys e.2 ∧ ∀ y ∈ ys, y ∈ seen
  levels : ∃ d A B, queue = A ++ B ∧ (∀ e ∈ A, e.2.length = d) ∧
      (∀ e ∈ B, e.2.length = d + 1) ∧ (A = [] → B = [])
  ghost : ∃ sd : Nat → Nat,
      (∀ x ∈ seen, ∀ k, Reaches g t x k → sd x ≤ k) ∧
      (∀ x ∈ seen, ∀ dx, g.nodes[x]? = some (ResolutionGraphNode.dist dx) →
        ∀ y, (y, x) ∈ g.edges → y ∈ seen ∨ ∃ py, (y, py) ∈ queue ∧ py.length = sd x + 1)
  frontier : ∀ e, queue.head? = some e → ∀ x k, Reaches g t x k → k < e.2.length → x ∈ seen
  noRoot : ∀ x ∈ seen, ¬ isRootNode g x
  tSeen : t ∈ seen ∨ ∃ pt, (t, pt) ∈ queue

/-- What holds of a step list returned by the BFS: it witnesses a shortest
ancestry walk (soundness and minimality), and its steps come exactly from
distribution nodes other than the target, in root-to-target order. -/
def GraphFound (g : ResolutionGraph) (t : Nat) (steps : List DerivationStep) : Prop :=
  ReachRoot g t (steps.length + 1) ∧
  (∀ k, ReachRoot g t k → steps.length + 1 ≤ k) ∧
  ∃ zs : List Nat, steps = (zs.map (nodeStep g)).reverse ∧ t ∉ zs ∧
    ∀ z ∈ zs, ∃ d, g.nodes[z]? = some (ResolutionGraphNode.dist d)

/-! ## The solver state (`State<UvDependencyProvider>` / PubGrub) -/

/-- `PubGrubPackage`: the root package, unnamed virtual packages (e.g. the
Python requirement), and named packages (the tag stands for the
extra/marker/group variants that distinguish packages of the same name). -/
inductive PubGrubPackage where
  | root
  | python (tag : Nat)
  | package (name : PackageName) (tag : Nat)
deriving DecidableEq, Repr

/-- `PubGrubPackage::is_root`. -/
def PubGrubPackage.isRoot : PubGrubPackage → Bool
  | PubGrubPackage.root => true
  | _ => false

/-- `PubGrubPackage::name`: `None` for the root and for unnamed virtual
packages, `Some` for named packages. -/
def PubGrubPackage.name : PubGrubPackage → Option PackageName
  | PubGrubPackage.root => none
  | PubGrubPackage.python _ => none
  | PubGrubPackage.package n _ => some n

/-- `Ranges<Version>` seen through its only used operation, `contains`. -/
abbrev Ranges := Version → Bool

/-- The incompatibility kinds: `Kind::FromDependencyOf(p1, v1, p2, v2)`
("p1 within v1 depends on p2 within v2"), all other kinds collapsed. -/
inductive IncompatKind where
  | fromDependencyOf (p1 : PubGrubPackage) (v1 : Ranges) (p2 : PubGrubPackage) (v2 : Ranges)
  | other

/-- An incompatibility record of the store. -/
structure Incompatibility where
  kind : IncompatKind

/-- The solver state as consumed by `from_state`: the incompatibility store
(an arena indexed by `Nat`), the package-indexed incompatibility lookup, and
the selected-dependencies snapshot extracted from the partial solution
(`state.partial_solution.extract_solution()`, an external collaborator,
supplied as an opaque mapping). -/
structure SolverState where
  incompatibilityStore : List Incompatibility
  incompatibilities : PubGrubPackage → List Nat
  selectedDependencies : PubGrubPackage → Option Version

/-- One raw path element pushed by `fill_complete_path`:
`(p1, v1, p2, v2, version)`. -/
structure PathEntry where
  p1 : PubGrubPackage
  v1 : Ranges
  p2 : PubGrubPackage
  v2 : Ranges
  ver : Version

/-- The candidate loop of `fill_complete_path` (`for i in incompats`), with
the recursive call abstracted as `recurse`.  On failure of a candidate the
tentatively appended step is dropped by continuing with the original `path`
(the Rust `path.pop()`). -/
def tryCandidates (state : SolverState) (solution : PubGrubPackage → Option Version)
    (recurse : PubGrubPackage → Version → List PathEntry → Option (Bool × List PathEntry))
    (package : PubGrubPackage) (version : Version) (path : List PathEntry) :
    List Nat → Option (Bool × List PathEntry)
  | [] => some (false, path)
  | i :: is =>
    match state.incompatibilityStore[i]? with
    | some inc =>
      match inc.kind with
      | IncompatKind.fromDependencyOf p1 _v1 p2 v2 =>
        if p2 = package ∧ v2 version = true then
          match solution p1 with
          | some ver =>
            match recurse p1 ver (path ++ [PathEntry.mk p1 _v1 p2 v2 ver]) with
            | none => none
            | some (true, path') => some (true, path')
            | some (false, _) => tryCandidates state solution recurse package version path is
          | none => tryCandidates state solution recurse package version path is
        else tryCandidates state solution recurse package version path is
      | IncompatKind.other => tryCandidates state solution recurse package version path is
    | none => tryCandidates state solution recurse package version path is

/-- `fill_complete_path`, with explicit recursion fuel (`none` = fuel
exhausted; unreachable under the solver's acyclicity invariant). -/
def fillCompletePath (state : SolverState) (solution : PubGrubPackage → Option Version) :
    Nat → PubGrubPackage → Version → List PathEntry → Option (Bool × List PathEntry)
  | 0, _, _, _ => none
  | fuel + 1, package, version, path =>
    if package.isRoot then some (true, path)
    else
      tryCandidates state solution (fillCompletePath state solution fuel) package version path
        (state.incompatibilities package)

/-- The post-processing of the found raw path in `from_state`: reverse into
root-to-target order and keep only the steps whose requirer has a name. -/
def pathToSteps (path : List PathEntry) : List DerivationStep :=
  path.reverse.filterMap (fun e => (PubGrubPackage.name e.p1).map (fun n => DerivationStep.mk n e.ver))

/-- `DerivationChain::from_state`, with explicit recursion fuel for the
backtracking search (`none` = the model ran out of fuel; `some r` = the Rust
function returns `r`). -/
def fromState (fuel : Nat) (package : PubGrubPackage) (version : Version) (state : SolverState) :
    Option (Option DerivationChain) :=
  match fillCompletePath state state.selectedDependencies fuel package version [] with
  | none => none
  | some (false, _) => some none
  | some (true, path) => some (some (DerivationChain.fromSteps (pathToSteps path)))

/-- The solver's acyclicity invariant on the incompatibility store, expressed
by a rank function: every "derived from dependency" record ranks its requirer
strictly below its dependency. -/
def Ranked (state : SolverState) (rank : PubGrubPackage → Nat) : Prop :=
  ∀ inc ∈ state.incompatibilityStore, ∀ p1 v1 p2 v2,
    inc.kind = IncompatKind.fromDependencyOf p1 v1 p2 v2 → rank p1 < rank p2

/-- A valid ancestry chain for `(package, version)` in the solver state: a
sequence of indexed "derived from dependency" records linking the package
back to the root, every requirer being present in the selected-dependencies
snapshot. -/
inductive ValidDerivation (state : SolverState) : PubGrubPackage → Version → Prop where
  | root (v : Version) : ValidDerivation state PubGrubPackage.root v
  | step {package : PubGrubPackage} {version : Version} {p1 : PubGrubPackage}
      {v1 v2 : Ranges} {ver1 : Version} {i : Nat} :
      i ∈ state.incompatibilities package →
      state.incompatibilityStore[i]? =
        some (Incompatibility.mk (IncompatKind.fromDependencyOf p1 v1 package v2)) →
      v2 version = true →
      state.selectedDependencies p1 = some ver1 →
      ValidDerivation state p1 ver1 →
      ValidDerivation state package version

/-! ## Concrete instances used by witnesses and counterexamples -/

/-- The spec's scenario graph: Root → A==1.0 → B==2.0 → C==3.0. -/
def gScenario : ResolutionGraph :=
  ResolutionGraph.mk
    [ResolutionGraphNode.root,
     ResolutionGraphNode.dist (AnnotatedDist.mk 1 true "A" "1.0"),
     ResolutionGraphNode.dist (AnnotatedDist.mk 2 true "B" "2.0"),
     ResolutionGraphNode.dist (AnnotatedDist.mk 3 true "C" "3.0")]
    [(0, 1), (1, 2), (2, 3)]

/-- A malformed graph: the target distribution is present but Root is
unreachable from it. -/
def gDisconnected : ResolutionGraph :=
  ResolutionGraph.mk
    [ResolutionGraphNode.root,
     ResolutionGraphNode.dist (AnnotatedDist.mk 1 true "A" "1.0")]
    []

/-- A pathological cyclic graph (A and B depend on each other). -/
def gCyclic : ResolutionGraph :=
  ResolutionGraph.mk
    [ResolutionGraphNode.root,
     ResolutionGraphNode.dist (AnnotatedDist.mk 1 true "A" "1.0"),
     ResolutionGraphNode.dist (AnnotatedDist.mk 2 true "B" "2.0")]
    [(0, 1), (1, 2), (2, 1)]

/-- A version range containing every version. -/
def rangeAll : Ranges := fun _ => true

def pkgX : PubGrubPackage := PubGrubPackage.package "x" 0

def pkgA : PubGrubPackage := PubGrubPackage.package "a" 0

def pkgDead : PubGrubPackage := PubGrubPackage.package "dead" 0

def pkgStuck : PubGrubPackage := PubGrubPackage.package "stuck" 0

def pyVirt : PubGrubPackage := PubGrubPackage.python 0

/-- Solver state for the backtracking witness: `x`'s candidate records are a
dead end whose requirer is never selected, a dead end whose requirer is
selected but leads nowhere, and a live record through `a` to the root. -/
def stBacktrack : SolverState :=
  SolverState.mk
    [Incompatibility.mk (IncompatKind.fromDependencyOf pkgDead rangeAll pkgX rangeAll),
     Incompatibility.mk (IncompatKind.fromDependencyOf pkgA rangeAll pkgX rangeAll),
     Incompatibility.mk (IncompatKind.fromDependencyOf PubGrubPackage.root rangeAll pkgA rangeAll),
     Incompatibility.mk (IncompatKind.fromDependencyOf pkgStuck rangeAll pkgX rangeAll)]
    (fun p => if p = pkgX then [0, 3, 1] else if p = pkgA then [2] else [])
    (fun p =>
      if p = pkgA then some "1.0"
      else if p = pkgStuck then some "9"
      else if p = PubGrubPackage.root then some "0" else none)

/-- The rank function witnessing acyclicity of `stBacktrack`. -/
def rankBacktrack : PubGrubPackage → Nat
  | PubGrubPackage.root => 0
  | PubGrubPackage.package "a" _ => 1
  | PubGrubPackage.package "dead" _ => 1
  | PubGrubPackage.package "stuck" _ => 1
  | _ => 2

/-- Solver state whose found path runs through unnamed packages: `x ← a ←
python ← root`. -/
def stUnnamed : SolverState :=
  SolverState.mk
    [Incompatibility.mk (IncompatKind.fromDependencyOf pkgA rangeAll pkgX rangeAll),
     Incompatibility.mk (IncompatKind.fromDependencyOf pyVirt rangeAll pkgA rangeAll),
     Incompatibility.mk (IncompatKind.fromDependencyOf PubGrubPackage.root rangeAll pyVirt rangeAll)]
    (fun p =>
      if p = pkgX then [0] else if p = pkgA then [1] else if p = pyVirt then [2] else [])
    (fun p =>
      if p = pkgA then some "1.0"
      else if p = pyVirt then some "3.12"
      else if p = PubGrubPackage.root then some "0" else none)

/-- The rank function witnessing acyclicity of `stUnnamed`. -/
def rankUnnamed : PubGrubPackage → Nat
  | PubGrubPackage.root => 0
  | PubGrubPackage.python _ => 1
  | PubGrubPackage.package "a" _ => 2
  | _ => 3

/-- Solver state with a single record whose dependency side is not `x`. -/
def stNoRecord : SolverState :=
  SolverState.mk
    [Incompatibility.mk (IncompatKind.fromDependencyOf pkgA rangeAll pkgDead rangeAll)]
    (fun p => if p = pkgDead then [0] else [])
    (fun p => if p = pkgA then some "1.0" else none)

end UvDerivation

namespace UvDerivation

/-! ## Basic list helpers -/

theorem filter_length_mono {α} (l : List α) (p q : α → Bool) (h : ∀ x, p x = true → q x = true) :
    (l.filter p).length ≤ (l.filter q).length := by
  induction l with
  | nil => simp
  | cons a t ih =>
    by_cases hp : p a = true
    · simp only [List.filter_cons, hp, h a hp, if_true, List.length_cons]
      omega
    · simp only [List.filter_cons, hp, if_false, Bool.false_eq_true]
      split
      · simp only [List.length_cons]; omega
      · exact ih

theorem countUnseen_cons_le (g : ResolutionGraph) (n : Nat) (seen : List Nat) :
    countUnseen g (n :: seen) ≤ countUnseen g seen := by
  refine filter_length_mono _ _ _ ?_
  intro x hx
  simp only [decide_eq_true_eq] at hx ⊢
  intro hmem
  exact hx (List.mem_cons_of_mem _ hmem)

theorem filter_notmem_cons_length (seen : List Nat) (n : Nat) :
    ∀ l : List Nat, l.Nodup → n ∈ l → n ∉ seen →
      (l.filter (fun i => decide (i ∉ seen))).length =
        (l.filter (fun i => decide (i ∉ n :: seen))).length + 1 := by
  intro l
  induction l with
  | nil => intro _ h; exact absurd h (List.not_mem_nil n)
  | cons a t ih =>
    intro hnd hmem hns
    have hnd' := List.nodup_cons.mp hnd
    by_cases han : a = n
    · subst han
      have h1 : (decide (a ∉ seen)) = true := by simpa using hns
      have h2 : (decide (a ∉ a :: seen)) = false := by simp
      simp only [List.filter_cons, h1, h2, if_true, Bool.false_eq_true, if_false, List.length_cons]
      have hcong : t.filter (fun i => decide (i ∉ seen)) =
          t.filter (fun i => decide (i ∉ a :: seen)) := by
        refine List.filter_congr ?_
        intro x hx
        have hxa : x ≠ a := fun h => hnd'.1 (h ▸ hx)
        simp [List.mem_cons, hxa]
      rw [hcong]
    · have hmem' : n ∈ t := by
        rcases List.mem_cons.mp hmem with h | h
        · exact absurd h.symm han
        · exact h
      have hcond : (decide (a ∉ seen)) = (decide (a ∉ n :: seen)) := by
        simp [List.mem_cons, han]
      simp only [List.filter_cons, ← hcond]
      split
      · simp only [List.length_cons]
        rw [ih hnd'.2 hmem' hns]
      · exact ih hnd'.2 hmem' hns

theorem countUnseen_cons_eq (g : ResolutionGraph) (n : Nat) (seen : List Nat)
    (h1 : n < g.nodes.length) (h2 : n ∉ seen) :
    countUnseen g seen = countUnseen g (n :: seen) + 1 := by
  unfold countUnseen
  exact filter_notmem_cons_length seen n _ (List.nodup_range g.nodes.length)
    (List.mem_range.mpr h1) h2

theorem incoming_length_le (g : ResolutionGraph) (n : Nat) :
    (incomingNeighbors g n).length ≤ g.edges.length := by
  unfold incomingNeighbors
  rw [List.length_map]
  exact List.length_filter_le _ _

theorem mem_incomingNeighbors {g : ResolutionGraph} {m n : Nat} :
    m ∈ incomingNeighbors g n ↔ (m, n) ∈ g.edges := by
  unfold incomingNeighbors
  constructor
  · intro h
    obtain ⟨e, he, hm⟩ := List.mem_map.mp h
    have := List.mem_filter.mp he
    have h2 : e.2 = n := by simpa using this.2
    have : e = (m, n) := by
      cases e
      simp_all
    exact this ▸ this.symm ▸ (List.mem_filter.mp he).1
  · intro h
    refine List.mem_map.mpr ⟨(m, n), List.mem_filter.mpr ⟨h, by simp⟩, rfl⟩

/-! ## Fuel stabilisation of the BFS loop -/

theorem bfsBound_cons (g : ResolutionGraph) (e : QEntry) (rest : List QEntry) (seen : List Nat) :
    bfsBound g (e :: rest) seen = bfsBound g rest seen + 1 := by
  simp [bfsBound, List.length_cons]
  omega

theorem bfsAux_stable_aux (g : ResolutionGraph) :
    ∀ n fuel fuel2 queue seen, fuel ≤ n →
      bfsBound g queue seen ≤ fuel → bfsBound g queue seen ≤ fuel2 →
      bfsAux g fuel queue seen = bfsAux g fuel2 queue seen ∧ bfsAux g fuel queue seen ≠ none := by
  intro n
  induction n with
  | zero =>
    intro fuel fuel2 queue seen hn hb _
    exfalso
    have : 1 ≤ bfsBound g queue seen := by unfold bfsBound; omega
    omega
  | succ n ih =>
    intro fuel fuel2 queue seen hn hb hb2
    have hb1 : 1 ≤ bfsBound g queue seen := by unfold bfsBound; omega
    obtain ⟨f, rfl⟩ : ∃ f, fuel = f + 1 := ⟨fuel - 1, by omega⟩
    obtain ⟨f2, rfl⟩ : ∃ f2, fuel2 = f2 + 1 := ⟨fuel2 - 1, by omega⟩
    match queue with
    | [] => simp [bfsAux]
    | (nn, p) :: rest =>
      rw [bfsBound_cons] at hb hb2
      by_cases hseen : nn ∈ seen
      · simp only [bfsAux, if_pos hseen]
        exact ih f f2 rest seen (by omega) (by omega) (by omega)
      · cases hnode : g.nodes[nn]? with
        | none =>
          simp only [bfsAux, if_neg hseen, hnode]
          have hle : bfsBound g rest (nn :: seen) ≤ bfsBound g rest seen := by
            unfold bfsBound
            have := countUnseen_cons_le g nn seen
            have := Nat.mul_le_mul_right g.edges.length (countUnseen_cons_le g nn seen)
            omega
          exact ih f f2 rest (nn :: seen) (by omega) (by omega) (by omega)
        | some node =>
          cases node with
          | root => simp [bfsAux, if_neg hseen, hnode]
          | dist d =>
            simp only [bfsAux, if_neg hseen, hnode]
            have hvalid : nn < g.nodes.length := (List.getElem?_eq_some.mp hnode).1
            have hcu : countUnseen g seen = countUnseen g (nn :: seen) + 1 :=
              countUnseen_cons_eq g nn seen hvalid hseen
            have hlen : (rest ++ (incomingNeighbors g nn).map
                (fun m => (m, p ++ [DerivationStep.mk d.name d.version]))).length ≤
                rest.length + g.edges.length := by
              rw [List.length_append, List.length_map]
              have := incoming_length_le g nn
              omega
            have hle : bfsBound g (rest ++ (incomingNeighbors g nn).map
                (fun m => (m, p ++ [DerivationStep.mk d.name d.version]))) (nn :: seen) ≤
                bfsBound g rest seen := by
              unfold bfsBound
              have h1 : countUnseen g (nn :: seen) * g.edges.length + g.edges.length =
                  countUnseen g seen * g.edges.length := by
                rw [hcu]; ring
              omega
            exact ih f f2 _ (nn :: seen) (by omega) (by omega) (by omega)

theorem bfsAux_stable (g : ResolutionGraph) (queue : List QEntry) (seen : List Nat)
    (fuel : Nat) (h : bfsBound g queue seen ≤ fuel) :
    bfsAux g fuel queue seen = bfsAux g (bfsBound g queue seen) queue seen ∧
      bfsAux g fuel queue seen ≠ none :=
  bfsAux_stable_aux g fuel fuel (bfsBound g queue seen) queue seen (Nat.le_refl fuel) h
    (Nat.le_refl _)

end UvDerivation

namespace UvDerivation

/-! ## Rendering (Display) -/

theorem displayFrom_cons (j : Nat) (s : DerivationStep) (rest : List DerivationStep) :
    displayFrom j (s :: rest) =
      (if j > 0 then " -> " else "") ++ s.name ++ "==" ++ s.version ++ displayFrom (j + 1) rest :=
  rfl

theorem displayFrom_shift (l : List DerivationStep) :
    ∀ j, displayFrom (j + 1) l = displayFrom 1 l := by
  induction l with
  | nil => intro j; rfl
  | cons s rest ih =>
    intro j
    rw [displayFrom_cons, displayFrom_cons, if_pos (Nat.succ_pos j), if_pos (Nat.succ_pos 0)]
    rw [ih (j + 1), ih 1]

theorem displayFrom_one (l : List DerivationStep) (hne : l ≠ []) :
    displayFrom 1 l = " -> " ++ joinSep " -> " (l.map DerivationStep.display) := by
  induction l with
  | nil => exact absurd rfl hne
  | cons s rest ih =>
    rw [displayFrom_cons, if_pos (Nat.succ_pos 0), displayFrom_shift rest 1]
    cases rest with
    | nil => simp [displayFrom, joinSep, DerivationStep.display, String.append_assoc]
    | cons r rs =>
      rw [ih (by simp)]
      simp only [List.map_cons, joinSep, DerivationStep.display]
      simp [String.append_assoc]

theorem display_eq_joinSep (c : DerivationChain) :
    c.display = joinSep " -> " (c.steps.map DerivationStep.display) := by
  unfold DerivationChain.display
  cases h : c.steps with
  | nil => rfl
  | cons s rest =>
    rw [displayFrom_cons, if_neg (by omega), displayFrom_shift rest 0]
    cases rest with
    | nil => simp [displayFrom, joinSep, DerivationStep.display, String.append_assoc]
    | cons r rs =>
      rw [displayFrom_one (r :: rs) (by simp)]
      simp only [List.map_cons, joinSep, DerivationStep.display]
      simp [String.append_assoc, String.empty_append]

/-- C7: the textual rendering of a chain is its steps, each rendered as
`name==version`, joined by `" -> "`; in particular `[A==1.0, B==2.0]`
renders as `"A==1.0 -> B==2.0"`, a single step as `"A==1.0"`, and the empty
chain as `""`. -/
theorem claim_C7 :
    (∀ c : DerivationChain, c.display = joinSep " -> " (c.steps.map DerivationStep.display)) ∧
    (DerivationChain.mk [DerivationStep.mk "A" "1.0", DerivationStep.mk "B" "2.0"]).display =
      "A==1.0 -> B==2.0" ∧
    (DerivationChain.mk [DerivationStep.mk "A" "1.0"]).display = "A==1.0" ∧
    (DerivationChain.mk []).display = "" := by
  refine ⟨display_eq_joinSep, ?_, ?_, ?_⟩ <;> rfl

/-- C10: collecting a list of steps into a chain yields back exactly that
list under both the borrowing and the consuming iteration; `len` equals the
number of steps supplied, and `is_empty` holds exactly when `len` is zero. -/
theorem claim_C10 :
    ∀ l : List DerivationStep,
      (DerivationChain.fromSteps l).iter = l ∧
      (DerivationChain.fromSteps l).intoIter = l ∧
      (DerivationChain.fromSteps l).len = l.length ∧
      ((DerivationChain.fromSteps l).isEmpty = true ↔ (DerivationChain.fromSteps l).len = 0) := by
  intro l
  refine ⟨rfl, rfl, rfl, ?_⟩
  cases l <;> simp [DerivationChain.fromSteps, DerivationChain.isEmpty, DerivationChain.len]

/-! ## The missing-target panic of `from_graph` -/

theorem findTargetNode_eq_none (g : ResolutionGraph) (target : Nat)
    (h : ∀ (i : Nat) (d : AnnotatedDist),
      g.nodes[i]? = some (ResolutionGraphNode.dist d) →
      d.installable = true → d.distId ≠ target) :
    findTargetNode g target = none := by
  unfold findTargetNode
  rw [List.find?_eq_none]
  intro i _
  unfold matchesTarget
  cases hnode : g.nodes[i]? with
  | none => simp
  | some node =>
    cases node with
    | root => simp
    | dist d =>
      simp only [Bool.and_eq_true, beq_iff_eq, not_and]
      intro hinst
      exact fun hid => h i d hnode hinst hid

/-- C4: when the queried target distribution cannot be located in the graph
as an installable distribution node, `from_graph` fails loudly with the
`.expect` panic (embedded as `Except.error` with the panic message) instead
of returning an empty chain or `None`. -/
theorem claim_C4 (g : ResolutionGraph) (target : Nat)
    (h : ∀ (i : Nat) (d : AnnotatedDist),
      g.nodes[i]? = some (ResolutionGraphNode.dist d) →
      d.installable = true → d.distId ≠ target) :
    fromGraph g target =
      Except.error "every distribution in the resolution graph should be present" := by
  unfold fromGraph
  rw [findTargetNode_eq_none g target h]

/-- Witness for C4 at a concrete graph: distribution reference 99 is absent
from the scenario graph, and the call fails with the panic message. -/
theorem claim_C4_witness :
    (∀ (i : Nat) (d : AnnotatedDist),
      gScenario.nodes[i]? = some (ResolutionGraphNode.dist d) →
      d.installable = true → d.distId ≠ 99) ∧
    fromGraph gScenario 99 =
      Except.error "every distribution in the resolution graph should be present" := by
  have h : ∀ (i : Nat) (d : AnnotatedDist),
      gScenario.nodes[i]? = some (ResolutionGraphNode.dist d) →
      d.installable = true → d.distId ≠ 99 := by
    intro i d hd hinst
    have hi : i < gScenario.nodes.length := (List.getElem?_eq_some.mp hd).1
    simp only [gScenario, List.length_cons, List.length_nil] at hi
    interval_cases i <;> simp_all [gScenario] <;> subst hd <;> decide
  exact ⟨h, claim_C4 gScenario 99 h⟩

end UvDerivation

namespace UvDerivation

/-! ## The solver-state finder: no matching record means `None` (C6) -/

theorem tryCandidates_all_skip (state : SolverState) (solution : PubGrubPackage → Option Version)
    (recurse : PubGrubPackage → Version → List PathEntry → Option (Bool × List PathEntry))
    (package : PubGrubPackage) (version : Version)
    (hno : ∀ (i : Nat) (inc : Incompatibility), state.incompatibilityStore[i]? = some inc →
      ∀ p1 v1 p2 v2, inc.kind = IncompatKind.fromDependencyOf p1 v1 p2 v2 →
        p2 = package → v2 version = false) :
    ∀ (is : List Nat) (path : List PathEntry),
      tryCandidates state solution recurse package version path is = some (false, path) := by
  intro is
  induction is with
  | nil => intro path; rfl
  | cons i is ih =>
    intro path
    simp only [tryCandidates]
    split
    · rename_i inc heq
      split
      · rename_i p1 v1 p2 v2 heq2
        split
        · rename_i hcond
          exfalso
          have hfalse := hno i inc heq p1 v1 p2 v2 heq2 hcond.1
          rw [hfalse] at hcond
          exact Bool.false_ne_true hcond.2
        · exact ih path
      · exact ih path
    · exact ih path

/-- C6: if the queried package is not the root and no "derived from
dependency" incompatibility record lists it on the dependency side with a
version range containing the queried version, `from_state` returns `None`. -/
theorem claim_C6 (state : SolverState) (package : PubGrubPackage) (version : Version)
    (fuel : Nat) (hroot : package.isRoot = false)
    (hno : ∀ (i : Nat) (inc : Incompatibility), state.incompatibilityStore[i]? = some inc →
      ∀ p1 v1 p2 v2, inc.kind = IncompatKind.fromDependencyOf p1 v1 p2 v2 →
        p2 = package → v2 version = false)
    (hf : 1 ≤ fuel) :
    fromState fuel package version state = some none := by
  obtain ⟨f, rfl⟩ : ∃ f, fuel = f + 1 := ⟨fuel - 1, by omega⟩
  have hside : fillCompletePath state state.selectedDependencies (f + 1) package version [] =
      some (false, []) := by
    unfold fillCompletePath
    rw [if_neg (by simp [hroot])]
    exact tryCandidates_all_skip state state.selectedDependencies _ package version hno _ []
  unfold fromState
  rw [hside]

/-- Witness for C6: `x` is not root, the only record of `stNoRecord` has
`dead` (not `x`) on its dependency side, and the query returns `None`. -/
theorem claim_C6_witness :
    pkgX.isRoot = false ∧
    (∀ (i : Nat) (inc : Incompatibility), stNoRecord.incompatibilityStore[i]? = some inc →
      ∀ p1 v1 p2 v2, inc.kind = IncompatKind.fromDependencyOf p1 v1 p2 v2 →
        p2 = pkgX → v2 "1" = false) ∧
    fromState 1 pkgX "1" stNoRecord = some none := by
  have hno : ∀ (i : Nat) (inc : Incompatibility), stNoRecord.incompatibilityStore[i]? = some inc →
      ∀ p1 v1 p2 v2, inc.kind = IncompatKind.fromDependencyOf p1 v1 p2 v2 →
        p2 = pkgX → v2 "1" = false := by
    intro i inc h p1 v1 p2 v2 hk hp2
    cases i with
    | zero =>
      simp only [stNoRecord, List.getElem?_cons_zero, Option.some_inj] at h
      subst h
      simp only [stNoRecord] at hk
      injection hk with h1 h2 h3 h4
      subst h3
      exact absurd hp2 (by decide)
    | succ n =>
      simp only [stNoRecord, List.getElem?_cons_succ, List.getElem?_nil] at h
      exact Option.noConfusion h
  exact ⟨rfl, hno, claim_C6 stNoRecord pkgX "1" 1 rfl hno (by omega)⟩

/-! ## The solver-state finder: post-processing of a found path (C9) -/

theorem length_filterMap_eq {α β : Type} (f : α → Option β) (l : List α) :
    (l.filterMap f).length = (l.filter (fun a => (f a).isSome)).length := by
  induction l with
  | nil => rfl
  | cons a t ih =>
    cases hfa : f a <;>
      simp [List.filterMap_cons, hfa, List.filter_cons, ih]

theorem pathToSteps_length (path : List PathEntry) :
    (pathToSteps path).length =
      (path.filter (fun e => (PubGrubPackage.name e.p1).isSome)).length := by
  unfold pathToSteps
  rw [length_filterMap_eq]
  have : path.reverse.filter (fun e => ((PubGrubPackage.name e.p1).map
      (fun n => DerivationStep.mk n e.ver)).isSome) =
      (path.filter (fun e => (PubGrubPackage.name e.p1).isSome)).reverse := by
    rw [← List.filter_reverse]
    refine List.filter_congr ?_
    intro e _
    cases PubGrubPackage.name e.p1 <;> simp
  rw [this, List.length_reverse]

/-- C9: whenever the raw backtracking path is found, `from_state` returns
`Some` of the path reversed into root-to-target order with every step whose
requirer has no name silently dropped; an unnamed requirer never fails the
whole chain. -/
theorem claim_C9 (state : SolverState) (package : PubGrubPackage) (version : Version)
    (fuel : Nat) (path : List PathEntry)
    (h : fillCompletePath state state.selectedDependencies fuel package version [] =
      some (true, path)) :
    ∃ c, fromState fuel package version state = some (some c) ∧
      c.steps = pathToSteps path ∧
      c.len = (path.filter (fun e => (PubGrubPackage.name e.p1).isSome)).length := by
  refine ⟨DerivationChain.fromSteps (pathToSteps path), ?_, rfl, pathToSteps_length path⟩
  unfold fromState
  rw [h]

/-- Witness for C9 at `stUnnamed`: the found raw path runs `x ← a ← python ←
root`; the unnamed `python` and root steps are dropped while the result stays
`Some`, leaving the single named step `a==1.0`. -/
theorem claim_C9_witness :
    fillCompletePath stUnnamed stUnnamed.selectedDependencies 4 pkgX "1" [] =
      some (true,
        [PathEntry.mk pkgA rangeAll pkgX rangeAll "1.0",
         PathEntry.mk pyVirt rangeAll pkgA rangeAll "3.12",
         PathEntry.mk PubGrubPackage.root rangeAll pyVirt rangeAll "0"]) ∧
    ∃ c, fromState 4 pkgX "1" stUnnamed = some (some c) ∧
      c.steps = pathToSteps
        [PathEntry.mk pkgA rangeAll pkgX rangeAll "1.0",
         PathEntry.mk pyVirt rangeAll pkgA rangeAll "3.12",
         PathEntry.mk PubGrubPackage.root rangeAll pyVirt rangeAll "0"] ∧
      c.len = ([PathEntry.mk pkgA rangeAll pkgX rangeAll "1.0",
         PathEntry.mk pyVirt rangeAll pkgA rangeAll "3.12",
         PathEntry.mk PubGrubPackage.root rangeAll pyVirt rangeAll "0"].filter
          (fun e => (PubGrubPackage.name e.p1).isSome)).length :=
  ⟨rfl, claim_C9 stUnnamed pkgX "1" 4 _ rfl⟩

end UvDerivation

namespace UvDerivation

/-! ## The solver-state finder: the search never runs out under acyclicity -/

theorem tryCandidates_no_none (state : SolverState) (solution : PubGrubPackage → Option Version)
    (recurse : PubGrubPackage → Version → List PathEntry → Option (Bool × List PathEntry))
    (package : PubGrubPackage) (version : Version)
    (hrec : ∀ (i : Nat) (inc : Incompatibility) p1 v1 p2 v2 ver (path' : List PathEntry),
      state.incompatibilityStore[i]? = some inc →
      inc.kind = IncompatKind.fromDependencyOf p1 v1 p2 v2 →
      p2 = package → v2 version = true → solution p1 = some ver →
      recurse p1 ver path' ≠ none) :
    ∀ (is : List Nat) (path : List PathEntry),
      tryCandidates state solution recurse package version path is ≠ none := by
  intro is
  induction is with
  | nil => intro path h; exact Option.noConfusion h
  | cons j js ih =>
    intro path
    simp only [tryCandidates]
    split
    · rename_i incj heqj
      split
      · rename_i q1 w1 q2 w2 heqk
        split
        · rename_i hcond
          split
          · rename_i verj heqsol
            split
            · rename_i heqrec
              exact absurd heqrec
                (hrec j incj q1 w1 q2 w2 verj _ heqj heqk hcond.1 hcond.2 heqsol)
            · intro h; exact Option.noConfusion h
            · exact ih path
          · exact ih path
        · exact ih path
      · exact ih path
    · exact ih path

theorem fill_no_none (state : SolverState) (solution : PubGrubPackage → Option Version)
    (rank : PubGrubPackage → Nat) (hr : Ranked state rank) :
    ∀ (fuel : Nat) (package : PubGrubPackage) (version : Version) (path : List PathEntry),
      rank package < fuel →
      fillCompletePath state solution fuel package version path ≠ none := by
  intro fuel
  induction fuel with
  | zero => intro package version path h; omega
  | succ f ih =>
    intro package version path h
    unfold fillCompletePath
    split
    · intro hc; exact Option.noConfusion hc
    · apply tryCandidates_no_none
      intro i inc p1 v1 p2 v2 ver path' heq hkind hp2 hv2 hsol
      have hlt := hr inc (List.getElem?_mem heq) p1 v1 p2 v2 hkind
      subst hp2
      exact ih p1 ver path' (by omega)

/-! ## The solver-state finder: a valid chain is always found (C2) -/

theorem tryCandidates_finds (state : SolverState) (solution : PubGrubPackage → Option Version)
    (recurse : PubGrubPackage → Version → List PathEntry → Option (Bool × List PathEntry))
    (package : PubGrubPackage) (version : Version)
    (i : Nat) (inc : Incompatibility) (p1 : PubGrubPackage) (v1 v2 : Ranges) (ver : Version)
    (hstore : state.incompatibilityStore[i]? = some inc)
    (hkind : inc.kind = IncompatKind.fromDependencyOf p1 v1 package v2)
    (hv2 : v2 version = true)
    (hsol : solution p1 = some ver)
    (hrec : ∀ path', ∃ path'', recurse p1 ver path' = some (true, path''))
    (hnone : ∀ (j : Nat) (incj : Incompatibility) q1 w1 q2 w2 verj (path' : List PathEntry),
      state.incompatibilityStore[j]? = some incj →
      incj.kind = IncompatKind.fromDependencyOf q1 w1 q2 w2 →
      q2 = package → w2 version = true → solution q1 = some verj →
      recurse q1 verj path' ≠ none) :
    ∀ (is : List Nat) (path : List PathEntry), i ∈ is →
      ∃ path', tryCandidates state solution recurse package version path is =
        some (true, path') := by
  intro is
  induction is with
  | nil => intro path h; exact absurd h (List.not_mem_nil i)
  | cons j js ih =>
    intro path hmem
    simp only [tryCandidates]
    split
    · rename_i incj heqj
      split
      · rename_i q1 w1 q2 w2 heqk
        split
        · rename_i hcond
          split
          · rename_i verj heqsol
            split
            · rename_i heqrec
              exact absurd heqrec
                (hnone j incj q1 w1 q2 w2 verj _ heqj heqk hcond.1 hcond.2 heqsol)
            · rename_i path' _
              exact ⟨path', rfl⟩
            · rename_i snd heqrec
              rcases List.mem_cons.mp hmem with rfl | hmem'
              · exfalso
                rw [hstore] at heqj
                injection heqj with h1
                subst h1
                rw [hkind] at heqk
                injection heqk with a1 a2 a3 a4
                subst a1
                rw [hsol] at heqsol
                injection heqsol with hver
                subst hver
                obtain ⟨path'', hp⟩ := hrec (path ++ [PathEntry.mk p1 w1 q2 w2 ver])
                rw [hp] at heqrec
                exact Prod.noConfusion (Option.some.inj heqrec) (fun hb _ => Bool.noConfusion hb)
              · exact ih path hmem'
          · rename_i heqsol
            rcases List.mem_cons.mp hmem with rfl | hmem'
            · exfalso
              rw [hstore] at heqj
              injection heqj with h1
              subst h1
              rw [hkind] at heqk
              injection heqk with a1 a2 a3 a4
              subst a1
              rw [hsol] at heqsol
              exact Option.noConfusion heqsol
            · exact ih path hmem'
        · rename_i hcond
          rcases List.mem_cons.mp hmem with rfl | hmem'
          · exfalso
            rw [hstore] at heqj
            injection heqj with h1
            subst h1
            rw [hkind] at heqk
            injection heqk with a1 a2 a3 a4
            subst a3
            subst a4
            exact hcond ⟨rfl, hv2⟩
          · exact ih path hmem'
      · rename_i heqk
        rcases List.mem_cons.mp hmem with rfl | hmem'
        · exfalso
          rw [hstore] at heqj
          injection heqj with h1
          subst h1
          rw [hkind] at heqk
          exact IncompatKind.noConfusion heqk
        · exact ih path hmem'
    · rename_i heqj
      rcases List.mem_cons.mp hmem with rfl | hmem'
      · exfalso
        rw [hstore] at heqj
        exact Option.noConfusion heqj
      · exact ih path hmem'

theorem fill_success (state : SolverState) (rank : PubGrubPackage → Nat) (hr : Ranked state rank) :
    ∀ (package : PubGrubPackage) (version : Version),
      ValidDerivation state package version →
      ∀ (fuel : Nat) (path : List PathEntry), rank package < fuel →
        ∃ path', fillCompletePath state state.selectedDependencies fuel package version path =
          some (true, path') := by
  intro package version hvd
  induction hvd with
  | root v =>
    intro fuel path h
    obtain ⟨f, rfl⟩ : ∃ f, fuel = f + 1 := ⟨fuel - 1, by omega⟩
    exact ⟨path, by simp [fillCompletePath, PubGrubPackage.isRoot]⟩
  | step hmem hstore hv2 hsol hvd' ih =>
    rename_i package version p1 v1 v2 ver1 i
    intro fuel path h
    obtain ⟨f, rfl⟩ : ∃ f, fuel = f + 1 := ⟨fuel - 1, by omega⟩
    unfold fillCompletePath
    by_cases hroot : package.isRoot
    · rw [if_pos hroot]
      exact ⟨path, rfl⟩
    · rw [if_neg hroot]
      have hlt : rank p1 < rank package :=
        hr _ (List.getElem?_mem hstore) p1 v1 package v2 rfl
      refine tryCandidates_finds state state.selectedDependencies _ package version i
        (Incompatibility.mk (IncompatKind.fromDependencyOf p1 v1 package v2)) p1 v1 v2 ver1
        hstore rfl hv2 hsol
        (fun path' => ih f path' (by omega))
        ?_ (state.incompatibilities package) path hmem
      intro j incj q1 w1 q2 w2 verj path' heqj heqk hq2 hw2 hsolq
      have hltq := hr incj (List.getElem?_mem heqj) q1 w1 q2 w2 heqk
      subst hq2
      exact fill_no_none state state.selectedDependencies rank hr f q1 verj path' (by omega)

/-- C2: whenever a valid ancestry chain exists for the queried package and
version (a sequence of "derived from dependency" records linking it back to
the root, every requirer present in the selected-dependencies snapshot) and
the store satisfies the solver's acyclicity invariant, `from_state` returns
`Some` chain: dead-end candidates are undone and the next candidate tried. -/
theorem claim_C2 (state : SolverState) (rank : PubGrubPackage → Nat)
    (package : PubGrubPackage) (version : Version) (fuel : Nat)
    (hr : Ranked state rank) (hvd : ValidDerivation state package version)
    (hf : rank package < fuel) :
    ∃ c, fromState fuel package version state = some (some c) := by
  obtain ⟨path', hp⟩ := fill_success state rank hr package version hvd fuel [] hf
  refine ⟨DerivationChain.fromSteps (pathToSteps path'), ?_⟩
  unfold fromState
  rw [hp]

/-- Witness for C2 at `stBacktrack`: `x`'s candidates are tried in the order
dead (requirer never selected), stuck (requirer selected but its branch
cannot reach root), live (through `a` to root), and the search still returns
`Some`. -/
theorem claim_C2_witness :
    Ranked stBacktrack rankBacktrack ∧ ValidDerivation stBacktrack pkgX "1" ∧
    rankBacktrack pkgX < 3 ∧ ∃ c, fromState 3 pkgX "1" stBacktrack = some (some c) := by
  have hr : Ranked stBacktrack rankBacktrack := by
    intro inc hmem p1 v1 p2 v2 hk
    fin_cases hmem <;>
      · dsimp only at hk
        injection hk with h1 h2 h3 h4
        subst h1
        subst h3
        decide
  have hvA : ValidDerivation stBacktrack pkgA "1.0" :=
    @ValidDerivation.step stBacktrack pkgA "1.0" PubGrubPackage.root rangeAll rangeAll "0" 2
      (by decide) rfl rfl rfl (ValidDerivation.root "0")
  have hvX : ValidDerivation stBacktrack pkgX "1" :=
    @ValidDerivation.step stBacktrack pkgX "1" pkgA rangeAll rangeAll "1.0" 1
      (by decide) rfl rfl rfl hvA
  exact ⟨hr, hvX, by decide, claim_C2 stBacktrack rankBacktrack pkgX "1" 3 hr hvX (by decide)⟩

end UvDerivation

namespace UvDerivation

/-! ## Provenance of the raw path entries (towards C3) -/

theorem tryCandidates_out (state : SolverState) (solution : PubGrubPackage → Option Version)
    (recurse : PubGrubPackage → Version → List PathEntry → Option (Bool × List PathEntry))
    (package : PubGrubPackage) (version : Version) (Q : PathEntry → Prop)
    (hrec : ∀ (i : Nat) (inc : Incompatibility) p1 v1 p2 v2 ver (path' : List PathEntry) res',
      state.incompatibilityStore[i]? = some inc →
      inc.kind = IncompatKind.fromDependencyOf p1 v1 p2 v2 →
      p2 = package → v2 version = true → solution p1 = some ver →
      recurse p1 ver path' = some res' →
      (res'.1 = false → res'.2 = path') ∧
      (res'.1 = true → ∃ newE, res'.2 = path' ++ newE ∧ ∀ e ∈ newE, Q e))
    (hQ : ∀ (i : Nat) (inc : Incompatibility) p1 v1 p2 v2 ver,
      state.incompatibilityStore[i]? = some inc →
      inc.kind = IncompatKind.fromDependencyOf p1 v1 p2 v2 →
      p2 = package → v2 version = true → solution p1 = some ver →
      Q (PathEntry.mk p1 v1 p2 v2 ver)) :
    ∀ (is : List Nat) (path : List PathEntry) res,
      tryCandidates state solution recurse package version path is = some res →
      (res.1 = false → res.2 = path) ∧
      (res.1 = true → ∃ newE, res.2 = path ++ newE ∧ ∀ e ∈ newE, Q e) := by
  intro is
  induction is with
  | nil =>
    intro path res h
    simp only [tryCandidates, Option.some_inj] at h
    subst h
    exact ⟨fun _ => rfl, fun ht => absurd ht (by simp)⟩
  | cons j js ih =>
    intro path res h
    simp only [tryCandidates] at h
    split at h
    · rename_i incj heqj
      split at h
      · rename_i q1 w1 q2 w2 heqk
        split at h
        · rename_i hcond
          split at h
          · rename_i verj heqsol
            split at h
            · exact Option.noConfusion h
            · rename_i path' heqrec
              rw [Option.some_inj] at h
              subst h
              have hout := hrec j incj q1 w1 q2 w2 verj _ (true, path') heqj heqk hcond.1
                hcond.2 heqsol heqrec
              refine ⟨fun hf => absurd hf (by simp), fun _ => ?_⟩
              obtain ⟨newE, hEq, hall⟩ := hout.2 rfl
              refine ⟨PathEntry.mk q1 w1 q2 w2 verj :: newE, ?_, ?_⟩
              · simpa [List.append_assoc] using hEq
              · intro e he
                rcases List.mem_cons.mp he with rfl | he'
                · exact hQ j incj q1 w1 q2 w2 verj heqj heqk hcond.1 hcond.2 heqsol
                · exact hall e he'
            · exact ih path res h
          · exact ih path res h
        · exact ih path res h
      · exact ih path res h
    · exact ih path res h

theorem fill_new_entries (state : SolverState) (solution : PubGrubPackage → Option Version)
    (rank : PubGrubPackage → Nat) (hr : Ranked state rank) :
    ∀ (fuel : Nat) (package : PubGrubPackage) (version : Version) (path : List PathEntry) res,
      fillCompletePath state solution fuel package version path = some res →
      (res.1 = false → res.2 = path) ∧
      (res.1 = true → ∃ newE, res.2 = path ++ newE ∧
        ∀ e ∈ newE, rank e.p1 < rank package ∧ solution e.p1 = some e.ver) := by
  intro fuel
  induction fuel with
  | zero => intro package version path res h; exact Option.noConfusion h
  | succ f ih =>
    intro package version path res h
    unfold fillCompletePath at h
    by_cases hroot : package.isRoot = true
    · rw [if_pos hroot, Option.some_inj] at h
      subst h
      exact ⟨fun hf => absurd hf (by simp), fun _ => ⟨[], by simp, by simp⟩⟩
    · rw [if_neg hroot] at h
      refine tryCandidates_out state solution _ package version
        (fun e => rank e.p1 < rank package ∧ solution e.p1 = some e.ver) ?_ ?_
        (state.incompatibilities package) path res h
      · intro i inc p1 v1 p2 v2 ver path' res' heq hkind hp2 hv2 hsol hrec'
        have hout := ih p1 ver path' res' hrec'
        refine ⟨hout.1, fun ht => ?_⟩
        obtain ⟨newE, hEq, hall⟩ := hout.2 ht
        have hlt : rank p1 < rank package := by
          have := hr inc (List.getElem?_mem heq) p1 v1 p2 v2 hkind
          subst hp2
          exact this
        exact ⟨newE, hEq, fun e he => ⟨Nat.lt_trans (hall e he).1 hlt, (hall e he).2⟩⟩
      · intro i inc p1 v1 p2 v2 ver heq hkind hp2 hv2 hsol
        have hlt : rank p1 < rank package := by
          have := hr inc (List.getElem?_mem heq) p1 v1 p2 v2 hkind
          subst hp2
          exact this
        exact ⟨hlt, hsol⟩

theorem fromState_steps_sources (state : SolverState) (rank : PubGrubPackage → Nat)
    (package : PubGrubPackage) (version : Version) (fuel : Nat) (c : DerivationChain)
    (hr : Ranked state rank)
    (h : fromState fuel package version state = some (some c)) :
    ∃ path : List PathEntry,
      fillCompletePath state state.selectedDependencies fuel package version [] =
        some (true, path) ∧
      c.steps = pathToSteps path ∧
      (∀ e ∈ path, e.p1 ≠ package) ∧
      (∀ s ∈ c.steps, ∃ e ∈ path, PubGrubPackage.name e.p1 = some s.name ∧
        s.version = e.ver ∧ e.p1 ≠ PubGrubPackage.root ∧ e.p1 ≠ package) := by
  unfold fromState at h
  cases hfill : fillCompletePath state state.selectedDependencies fuel package version [] with
  | none => rw [hfill] at h; exact Option.noConfusion h
  | some res =>
    rw [hfill] at h
    obtain ⟨b, path⟩ := res
    cases b with
    | false =>
      simp only [Option.some_inj] at h
      exact Option.noConfusion h
    | true =>
      simp only [Option.some_inj] at h
      have hentries := (fill_new_entries state state.selectedDependencies rank hr fuel package
        version [] (true, path) hfill).2 rfl
      obtain ⟨newE, hEq, hall⟩ := hentries
      simp only [List.nil_append] at hEq
      have hmemE : ∀ e ∈ path, rank e.p1 < rank package ∧
          state.selectedDependencies e.p1 = some e.ver := by
        intro e he
        refine hall e ?_
        rw [← hEq]
        exact he
      have hnp : ∀ e ∈ path, e.p1 ≠ package := by
        intro e he hcontra
        have hlt := (hmemE e he).1
        rw [hcontra] at hlt
        exact Nat.lt_irrefl _ hlt
      refine ⟨path, rfl, ?_, hnp, ?_⟩
      · rw [← h]
        rfl
      · intro s hs
        rw [← h] at hs
        simp only [DerivationChain.fromSteps, pathToSteps] at hs
        obtain ⟨e, he, hfe⟩ := List.mem_filterMap.mp hs
        have he' : e ∈ path := List.mem_reverse.mp he
        obtain ⟨n, hn, hstep⟩ := Option.map_eq_some'.mp hfe
        refine ⟨e, he', ?_, ?_, ?_, hnp e he'⟩
        · rw [hn, ← hstep]
        · rw [← hstep]
        · intro hcontra
          rw [hcontra] at hn
          exact Option.noConfusion hn

end UvDerivation

namespace UvDerivation

/-! ## Properties of the entry walks of the BFS queue -/

theorem entryWalkL_length {g : ResolutionGraph} {t : Nat} :
    ∀ {n : Nat} {ys : List Nat} {p : List DerivationStep},
      EntryWalkL g t n ys p → ys.length = p.length := by
  intro n ys p h
  induction h with
  | base => rfl
  | step hw hnm hd he ih => simp [List.length_append, ih]

theorem entryWalkL_reaches {g : ResolutionGraph} {t : Nat} :
    ∀ {n : Nat} {ys : List Nat} {p : List DerivationStep},
      EntryWalkL g t n ys p → Reaches g t n ys.length := by
  intro n ys p h
  induction h with
  | base => exact Reaches.refl
  | step hw hnm hd he ih =>
    have := Reaches.tail ih he
    simpa [List.length_append] using this

theorem entryWalkL_map {g : ResolutionGraph} {t : Nat} :
    ∀ {n : Nat} {ys : List Nat} {p : List DerivationStep},
      EntryWalkL g t n ys p → p = ys.map (nodeStep g) := by
  intro n ys p h
  induction h with
  | base => rfl
  | step hw hnm hd he ih =>
    rename_i m n' ys' p' d'
    rw [List.map_append, ← ih]
    have : nodeStep g m = DerivationStep.mk d'.name d'.version := by
      unfold nodeStep
      rw [hd]
    rw [List.map_singleton, this]

theorem entryWalkL_dist {g : ResolutionGraph} {t : Nat} :
    ∀ {n : Nat} {ys : List Nat} {p : List DerivationStep},
      EntryWalkL g t n ys p →
      ∀ y ∈ ys, ∃ d, g.nodes[y]? = some (ResolutionGraphNode.dist d) := by
  intro n ys p h
  induction h with
  | base => intro y hy; exact absurd hy (List.not_mem_nil y)
  | step hw hnm hd he ih =>
    rename_i m n' ys' p' d'
    intro y hy
    rcases List.mem_append.mp hy with hy1 | hy2
    · exact ih y hy1
    · have : y = m := List.mem_singleton.mp hy2
      exact ⟨d', this ▸ hd⟩

theorem entryWalkL_shape {g : ResolutionGraph} {t : Nat} :
    ∀ {n : Nat} {ys : List Nat} {p : List DerivationStep},
      EntryWalkL g t n ys p →
      (ys = [] ∧ n = t ∧ p = []) ∨ (∃ zs, ys = t :: zs ∧ t ∉ zs) := by
  intro n ys p h
  induction h with
  | base => exact Or.inl ⟨rfl, rfl, rfl⟩
  | step hw hnm hd he ih =>
    rename_i m n' ys' p' d'
    right
    rcases ih with ⟨h1, h2, h3⟩ | ⟨zs, h1, h2⟩
    · subst h1
      subst h2
      exact ⟨[], rfl, List.not_mem_nil m⟩
    · subst h1
      refine ⟨zs ++ [m], rfl, ?_⟩
      intro hc
      rcases List.mem_append.mp hc with hc1 | hc2
      · exact h2 hc1
      · have hteq : t = m := List.mem_singleton.mp hc2
        exact hnm (by rw [← hteq]; exact List.mem_cons_self t zs)

/-! ## Walk truncation at the first root -/

theorem reaches_to_nr {g : ResolutionGraph} {t : Nat} :
    ∀ {x k : Nat}, Reaches g t x k →
      (∃ x' k', k' ≤ k ∧ isRootNode g x' ∧ ReachesNR g t x' k') ∨ ReachesNR g t x k := by
  intro x k h
  induction h with
  | refl => exact Or.inr ReachesNR.refl
  | tail hr he ih =>
    rename_i b c k'
    rcases ih with ⟨x', k'', hle, hroot, hnr⟩ | hnr
    · exact Or.inl ⟨x', k'', by omega, hroot, hnr⟩
    · by_cases hb : isRootNode g b
      · exact Or.inl ⟨b, k', by omega, hb, hnr⟩
      · exact Or.inr (ReachesNR.tail hnr hb he)

/-! ## The initial BFS invariant and the level structure -/

theorem bfsInv_init (g : ResolutionGraph) (t : Nat) : BfsInv g t [(t, [])] [] := by
  refine ⟨?_, ?_, ?_, ?_, ?_, ?_⟩
  · intro e he
    have : e = (t, ([] : List DerivationStep)) := List.mem_singleton.mp he
    subst this
    exact ⟨[], EntryWalkL.base, by simp⟩
  · exact ⟨0, [(t, [])], [], by simp, by simp, by simp, by simp⟩
  · refine ⟨fun _ => 0, ?_, ?_⟩
    · intro x hx
      exact absurd hx (List.not_mem_nil x)
    · intro x hx
      exact absurd hx (List.not_mem_nil x)
  · intro e he x k hr hk
    have h' : (t, ([] : List DerivationStep)) = e := by
      simpa using he
    subst h'
    simp at hk
  · intro x hx
    exact absurd hx (List.not_mem_nil x)
  · exact Or.inr ⟨[], List.mem_singleton.mpr rfl⟩

theorem levels_destruct {g : ResolutionGraph} {t n : Nat} {p : List DerivationStep}
    {rest : List QEntry} {seen : List Nat} (hInv : BfsInv g t ((n, p) :: rest) seen) :
    ∃ A1 B, rest = A1 ++ B ∧ (∀ e ∈ A1, e.2.length = p.length) ∧
      (∀ e ∈ B, e.2.length = p.length + 1) ∧
      (A1 = [] → ∀ e ∈ rest, e.2.length = p.length + 1) := by
  obtain ⟨dl, A, B, hq, hA, hB, hnorm⟩ := hInv.levels
  cases A with
  | nil =>
    rw [hnorm rfl] at hq
    simp at hq
  | cons a A1 =>
    rw [List.cons_append, List.cons.injEq] at hq
    obtain ⟨ha, hrest⟩ := hq
    have hdl : p.length = dl := by
      have := hA a (List.mem_cons_self a A1)
      rw [← ha] at this
      exact this
    refine ⟨A1, B, hrest, ?_, ?_, ?_⟩
    · intro e he
      rw [hdl]
      exact hA e (List.mem_cons_of_mem a he)
    · intro e he
      rw [hdl]
      exact hB e he
    · intro h1 e he
      rw [hdl]
      refine hB e ?_
      rw [h1, List.nil_append] at hrest
      exact hrest ▸ he

/-! ## The frontier-advance argument -/

theorem frontier_advance {g : ResolutionGraph} {t n : Nat} {p : List DerivationStep}
    {rest : List QEntry} {seen : List Nat}
    (hWF : g.WFEdges)
    (hInv : BfsInv g t ((n, p) :: rest) seen)
    (hB : ∀ e ∈ rest, e.2.length = p.length + 1) :
    ∀ x k, Reaches g t x k → k < p.length + 1 → x = n ∨ x ∈ seen := by
  intro x k hr hk
  by_cases hk' : k < p.length
  · exact Or.inr (hInv.frontier (n, p) rfl x k hr hk')
  · have hkeq : k = p.length := by omega
    clear hk hk'
    revert hkeq
    cases hr with
    | refl =>
      intro hkeq
      -- the walk has length 0, so p.length = 0 and the head entry is (t, [])
      obtain ⟨ys, hw, hsub⟩ := hInv.entries (n, p) (List.mem_cons_self _ _)
      have hlen : ys.length = p.length := entryWalkL_length hw
      have hys : ys = [] := by
        have : ys.length = 0 := by omega
        exact List.length_eq_zero.mp this
      subst hys
      rcases entryWalkL_shape hw with ⟨_, hnt, _⟩ | ⟨zs, hzs, _⟩
      · exact Or.inl hnt.symm
      · simp at hzs
    | tail hrb hedge =>
      rename_i y m
      intro hkeq
      -- the walk ends with an edge (x, y); y is at distance m = p.length - 1
      have hyseen : y ∈ seen :=
        hInv.frontier (n, p) rfl y m hrb (by show m < p.length; omega)
      have hyval : y < g.nodes.length := (hWF (x, y) hedge).2
      obtain ⟨nodey, hnodey⟩ : ∃ nb, g.nodes[y]? = some nb :=
        ⟨g.nodes[y], List.getElem?_eq_getElem hyval⟩
      cases nodey with
      | root => exact absurd hnodey (hInv.noRoot y hyseen)
      | dist dy =>
        obtain ⟨sd, hsd1, hsd2⟩ := hInv.ghost
        rcases hsd2 y hyseen dy hnodey x hedge with hx | ⟨py, hpy, hpylen⟩
        · exact Or.inr hx
        · have hsdy : sd y ≤ m := hsd1 y hyseen m hrb
          rcases List.mem_cons.mp hpy with heq | hin
          · exact Or.inl (congrArg Prod.fst heq)
          · have := hB (x, py) hin
            simp only at this
            omega

end UvDerivation

namespace UvDerivation

/-! ## Invariant preservation: skipping an already-seen node -/

theorem bfsInv_skip {g : ResolutionGraph} {t n : Nat} {p : List DerivationStep}
    {rest : List QEntry} {seen : List Nat}
    (hWF : g.WFEdges) (hInv : BfsInv g t ((n, p) :: rest) seen) (hseen : n ∈ seen) :
    BfsInv g t rest seen := by
  obtain ⟨A1, B, hrest, hA1, hB, hAll⟩ := levels_destruct hInv
  refine ⟨?_, ?_, ?_, ?_, ?_, ?_⟩
  · intro e he
    exact hInv.entries e (List.mem_cons_of_mem _ he)
  · cases A1 with
    | nil =>
      refine ⟨p.length + 1, B, [], by simp [hrest], hB, by simp, fun _ => rfl⟩
    | cons a A2 =>
      exact ⟨p.length, a :: A2, B, hrest, hA1, hB,
        fun h => absurd h (List.cons_ne_nil a A2)⟩
  · obtain ⟨sd, hsd1, hsd2⟩ := hInv.ghost
    refine ⟨sd, hsd1, ?_⟩
    intro x hx dx hdx y hedge
    rcases hsd2 x hx dx hdx y hedge with hy | ⟨py, hpy, hpylen⟩
    · exact Or.inl hy
    · rcases List.mem_cons.mp hpy with heq | hin
      · have hyn : y = n := congrArg Prod.fst heq
        exact Or.inl (by rw [hyn]; exact hseen)
      · exact Or.inr ⟨py, hin, hpylen⟩
  · intro e' he' x k hr hk
    cases A1 with
    | nil =>
      have hall := hAll rfl
      cases hrest' : rest with
      | nil => rw [hrest'] at he'; exact Option.noConfusion he'
      | cons r rs =>
        rw [hrest'] at he'
        have he'' : r = e' := by simpa using he'
        have hlen : e'.2.length = p.length + 1 := by
          rw [← he'']
          exact hall r (by rw [hrest']; exact List.mem_cons_self r rs)
        rcases frontier_advance hWF hInv hall x k hr (by omega) with hxn | hxs
        · rw [hxn]; exact hseen
        · exact hxs
    | cons a A2 =>
      have he'' : a = e' := by
        rw [hrest] at he'
        simpa using he'
      have hlen : e'.2.length = p.length := by
        rw [← he'']
        exact hA1 a (List.mem_cons_self a A2)
      exact hInv.frontier (n, p) rfl x k hr (by show k < p.length; omega)
  · exact hInv.noRoot
  · rcases hInv.tSeen with h | ⟨pt, hpt⟩
    · exact Or.inl h
    · rcases List.mem_cons.mp hpt with heq | hin
      · have htn : t = n := congrArg Prod.fst heq
        exact Or.inl (by rw [htn]; exact hseen)
      · exact Or.inr ⟨pt, hin⟩

/-! ## Invariant preservation: expanding a node absent from the node list -/

theorem bfsInv_invalid {g : ResolutionGraph} {t n : Nat} {p : List DerivationStep}
    {rest : List QEntry} {seen : List Nat}
    (hWF : g.WFEdges) (hInv : BfsInv g t ((n, p) :: rest) seen) (hnseen : n ∉ seen)
    (hnode : g.nodes[n]? = none) :
    BfsInv g t rest (n :: seen) := by
  obtain ⟨A1, B, hrest, hA1, hB, hAll⟩ := levels_destruct hInv
  refine ⟨?_, ?_, ?_, ?_, ?_, ?_⟩
  · intro e he
    obtain ⟨ys, hw, hsub⟩ := hInv.entries e (List.mem_cons_of_mem _ he)
    exact ⟨ys, hw, fun y hy => List.mem_cons_of_mem n (hsub y hy)⟩
  · cases A1 with
    | nil =>
      refine ⟨p.length + 1, B, [], by simp [hrest], hB, by simp, fun _ => rfl⟩
    | cons a A2 =>
      exact ⟨p.length, a :: A2, B, hrest, hA1, hB,
        fun h => absurd h (List.cons_ne_nil a A2)⟩
  · obtain ⟨sd, hsd1, hsd2⟩ := hInv.ghost
    refine ⟨fun x => if x = n then p.length else sd x, ?_, ?_⟩
    · intro x hx k hr
      dsimp only
      rcases List.mem_cons.mp hx with rfl | hx'
      · rw [if_pos rfl]
        by_contra hcon
        push_neg at hcon
        exact hnseen (hInv.frontier (x, p) rfl x k hr (by show k < p.length; omega))
      · have hxn : ¬ (x = n) := fun hc => hnseen (hc ▸ hx')
        rw [if_neg hxn]
        exact hsd1 x hx' k hr
    · intro x hx dx hdx y hedge
      dsimp only
      rcases List.mem_cons.mp hx with rfl | hx'
      · rw [hnode] at hdx
        exact Option.noConfusion hdx
      · have hxn : ¬ (x = n) := fun hc => hnseen (hc ▸ hx')
        rw [if_neg hxn]
        rcases hsd2 x hx' dx hdx y hedge with hy | ⟨py, hpy, hpylen⟩
        · exact Or.inl (List.mem_cons_of_mem n hy)
        · rcases List.mem_cons.mp hpy with heq | hin
          · have hyn : y = n := congrArg Prod.fst heq
            exact Or.inl (by rw [hyn]; exact List.mem_cons_self n seen)
          · exact Or.inr ⟨py, hin, hpylen⟩
  · intro e' he' x k hr hk
    cases A1 with
    | nil =>
      have hall := hAll rfl
      cases hrest' : rest with
      | nil => rw [hrest'] at he'; exact Option.noConfusion he'
      | cons r rs =>
        rw [hrest'] at he'
        have he'' : r = e' := by simpa using he'
        have hlen : e'.2.length = p.length + 1 := by
          rw [← he'']
          exact hall r (by rw [hrest']; exact List.mem_cons_self r rs)
        rcases frontier_advance hWF hInv hall x k hr (by omega) with hxn | hxs
        · rw [hxn]; exact List.mem_cons_self n seen
        · exact List.mem_cons_of_mem n hxs
    | cons a A2 =>
      have he'' : a = e' := by
        rw [hrest] at he'
        simpa using he'
      have hlen : e'.2.length = p.length := by
        rw [← he'']
        exact hA1 a (List.mem_cons_self a A2)
      exact List.mem_cons_of_mem n
        (hInv.frontier (n, p) rfl x k hr (by show k < p.length; omega))
  · intro x hx
    rcases List.mem_cons.mp hx with rfl | hx'
    · intro hroot
      unfold isRootNode at hroot
      rw [hnode] at hroot
      exact Option.noConfusion hroot
    · exact hInv.noRoot x hx'
  · rcases hInv.tSeen with h | ⟨pt, hpt⟩
    · exact Or.inl (List.mem_cons_of_mem n h)
    · rcases List.mem_cons.mp hpt with heq | hin
      · have htn : t = n := congrArg Prod.fst heq
        exact Or.inl (by rw [htn]; exact List.mem_cons_self n seen)
      · exact Or.inr ⟨pt, hin⟩

end UvDerivation

namespace UvDerivation

/-! ## Invariant preservation: expanding a distribution node -/

theorem mem_newEntries {g : ResolutionGraph} {n : Nat} {p : List DerivationStep}
    {d : AnnotatedDist} {e : QEntry} :
    e ∈ (incomingNeighbors g n).map
        (fun m => (m, p ++ [DerivationStep.mk d.name d.version])) ↔
      ∃ m, (m, n) ∈ g.edges ∧ e = (m, p ++ [DerivationStep.mk d.name d.version]) := by
  rw [List.mem_map]
  constructor
  · rintro ⟨m, hm, rfl⟩
    exact ⟨m, mem_incomingNeighbors.mp hm, rfl⟩
  · rintro ⟨m, hm, rfl⟩
    exact ⟨m, mem_incomingNeighbors.mpr hm, rfl⟩

theorem bfsInv_expand {g : ResolutionGraph} {t n : Nat} {p : List DerivationStep}
    {rest : List QEntry} {seen : List Nat} {d : AnnotatedDist}
    (hWF : g.WFEdges) (hInv : BfsInv g t ((n, p) :: rest) seen) (hnseen : n ∉ seen)
    (hnode : g.nodes[n]? = some (ResolutionGraphNode.dist d)) :
    BfsInv g t
      (rest ++ (incomingNeighbors g n).map
        (fun m => (m, p ++ [DerivationStep.mk d.name d.version])))
      (n :: seen) := by
  obtain ⟨A1, B, hrest, hA1, hB, hAll⟩ := levels_destruct hInv
  have hnewlen : ∀ e ∈ (incomingNeighbors g n).map
      (fun m => (m, p ++ [DerivationStep.mk d.name d.version])), e.2.length = p.length + 1 := by
    intro e he
    obtain ⟨m, _, rfl⟩ := mem_newEntries.mp he
    simp
  refine ⟨?_, ?_, ?_, ?_, ?_, ?_⟩
  · intro e he
    rcases List.mem_append.mp he with hin | hnew
    · obtain ⟨ys, hw, hsub⟩ := hInv.entries e (List.mem_cons_of_mem _ hin)
      exact ⟨ys, hw, fun y hy => List.mem_cons_of_mem n (hsub y hy)⟩
    · obtain ⟨m, hedge, rfl⟩ := mem_newEntries.mp hnew
      obtain ⟨ys, hw, hsub⟩ := hInv.entries (n, p) (List.mem_cons_self _ _)
      have hnm : n ∉ ys := fun hc => hnseen (hsub n hc)
      refine ⟨ys ++ [n], EntryWalkL.step hw hnm hnode hedge, ?_⟩
      intro y hy
      rcases List.mem_append.mp hy with hy1 | hy2
      · exact List.mem_cons_of_mem n (hsub y hy1)
      · have : y = n := List.mem_singleton.mp hy2
        rw [this]
        exact List.mem_cons_self n seen
  · cases A1 with
    | nil =>
      refine ⟨p.length + 1,
        rest ++ (incomingNeighbors g n).map
          (fun m => (m, p ++ [DerivationStep.mk d.name d.version])), [],
        by simp, ?_, by simp, fun _ => rfl⟩
      intro e he
      rcases List.mem_append.mp he with hin | hnew
      · exact hAll rfl e hin
      · exact hnewlen e hnew
    | cons a A2 =>
      refine ⟨p.length, a :: A2,
        B ++ (incomingNeighbors g n).map
          (fun m => (m, p ++ [DerivationStep.mk d.name d.version])),
        by rw [hrest, List.append_assoc], hA1, ?_,
        fun h => absurd h (List.cons_ne_nil a A2)⟩
      intro e he
      rcases List.mem_append.mp he with hin | hnew
      · exact hB e hin
      · exact hnewlen e hnew
  · obtain ⟨sd, hsd1, hsd2⟩ := hInv.ghost
    refine ⟨fun x => if x = n then p.length else sd x, ?_, ?_⟩
    · intro x hx k hr
      dsimp only
      rcases List.mem_cons.mp hx with rfl | hx'
      · rw [if_pos rfl]
        by_contra hcon
        push_neg at hcon
        exact hnseen (hInv.frontier (x, p) rfl x k hr (by show k < p.length; omega))
      · have hxn : ¬ (x = n) := fun hc => hnseen (hc ▸ hx')
        rw [if_neg hxn]
        exact hsd1 x hx' k hr
    · intro x hx dx hdx y hedge
      dsimp only
      rcases List.mem_cons.mp hx with rfl | hx'
      · rw [if_pos rfl]
        refine Or.inr ⟨p ++ [DerivationStep.mk d.name d.version], ?_, by simp⟩
        refine List.mem_append_right _ ?_
        refine mem_newEntries.mpr ⟨y, ?_, rfl⟩
        rw [hnode] at hdx
        have hdd : dx = d := by
          injection hdx with h1
          injection h1 with h2
          exact h2.symm
        exact hedge
      · have hxn : ¬ (x = n) := fun hc => hnseen (hc ▸ hx')
        rw [if_neg hxn]
        rcases hsd2 x hx' dx hdx y hedge with hy | ⟨py, hpy, hpylen⟩
        · exact Or.inl (List.mem_cons_of_mem n hy)
        · rcases List.mem_cons.mp hpy with heq | hin
          · have hyn : y = n := congrArg Prod.fst heq
            exact Or.inl (by rw [hyn]; exact List.mem_cons_self n seen)
          · exact Or.inr ⟨py, List.mem_append_left _ hin, hpylen⟩
  · intro e' he' x k hr hk
    cases A1 with
    | nil =>
      have hall := hAll rfl
      have hmem : e' ∈ rest ++ (incomingNeighbors g n).map
          (fun m => (m, p ++ [DerivationStep.mk d.name d.version])) := by
        cases hq : rest ++ (incomingNeighbors g n).map
            (fun m => (m, p ++ [DerivationStep.mk d.name d.version])) with
        | nil => rw [hq] at he'; exact Option.noConfusion he'
        | cons r rs =>
          rw [hq] at he'
          have : r = e' := by simpa using he'
          rw [← this]
          exact List.mem_cons_self r rs
      have hlen : e'.2.length = p.length + 1 := by
        rcases List.mem_append.mp hmem with hin | hnew
        · exact hall e' hin
        · exact hnewlen e' hnew
      rcases frontier_advance hWF hInv hall x k hr (by omega) with hxn | hxs
      · rw [hxn]; exact List.mem_cons_self n seen
      · exact List.mem_cons_of_mem n hxs
    | cons a A2 =>
      have he'' : a = e' := by
        rw [hrest] at he'
        simpa using he'
      have hlen : e'.2.length = p.length := by
        rw [← he'']
        exact hA1 a (List.mem_cons_self a A2)
      exact List.mem_cons_of_mem n
        (hInv.frontier (n, p) rfl x k hr (by show k < p.length; omega))
  · intro x hx
    rcases List.mem_cons.mp hx with rfl | hx'
    · intro hroot
      unfold isRootNode at hroot
      rw [hnode] at hroot
      injection hroot with h1
      exact ResolutionGraphNode.noConfusion h1
    · exact hInv.noRoot x hx'
  · rcases hInv.tSeen with h | ⟨pt, hpt⟩
    · exact Or.inl (List.mem_cons_of_mem n h)
    · rcases List.mem_cons.mp hpt with heq | hin
      · have htn : t = n := congrArg Prod.fst heq
        exact Or.inl (by rw [htn]; exact List.mem_cons_self n seen)
      · exact Or.inr ⟨pt, List.mem_append_left _ hin⟩

end UvDerivation

namespace UvDerivation

/-! ## The BFS master theorem: soundness, minimality, completeness -/

theorem bfs_master (g : ResolutionGraph) (t : Nat) (hWF : g.WFEdges)
    (d0 : AnnotatedDist) (htDist : g.nodes[t]? = some (ResolutionGraphNode.dist d0)) :
    ∀ (fuel : Nat) (queue : List QEntry) (seen : List Nat),
      bfsBound g queue seen ≤ fuel → BfsInv g t queue seen →
      (∀ steps, bfsAux g fuel queue seen = some (some steps) → GraphFound g t steps) ∧
      (bfsAux g fuel queue seen = some none → ∀ k, ¬ ReachRoot g t k) := by
  intro fuel
  induction fuel with
  | zero =>
    intro queue seen hb hInv
    constructor
    · intro steps h; exact Option.noConfusion h
    · intro h; exact Option.noConfusion h
  | succ f ih =>
    intro queue seen hb hInv
    match queue with
    | [] =>
      constructor
      · intro steps h
        simp [bfsAux] at h
      · intro _ k hk
        obtain ⟨r, hrch, hroot⟩ := hk
        have htseen : t ∈ seen := by
          rcases hInv.tSeen with h' | ⟨pt, hpt⟩
          · exact h'
          · exact absurd hpt (List.not_mem_nil _)
        have hclosed : ∀ x k', ReachesNR g t x k' → x ∈ seen := by
          intro x k' hnr
          induction hnr with
          | refl => exact htseen
          | tail hnr' hnotroot hedge ihh =>
            rename_i b c k''
            have hbval : b < g.nodes.length := (hWF (c, b) hedge).2
            obtain ⟨nodeb, hnodeb⟩ : ∃ nb, g.nodes[b]? = some nb :=
              ⟨g.nodes[b], List.getElem?_eq_getElem hbval⟩
            cases nodeb with
            | root => exact absurd hnodeb hnotroot
            | dist db =>
              obtain ⟨sd, hsd1, hsd2⟩ := hInv.ghost
              rcases hsd2 b ihh db hnodeb c hedge with hc | ⟨py, hpy, _⟩
              · exact hc
              · exact absurd hpy (List.not_mem_nil _)
        rcases reaches_to_nr hrch with ⟨x', k', hle, hroot', hnr⟩ | hnr
        · exact hInv.noRoot x' (hclosed x' k' hnr) hroot'
        · exact hInv.noRoot r (hclosed r k hnr) hroot
    | (nn, p) :: rest =>
      by_cases hseen : nn ∈ seen
      · have heq : bfsAux g (f + 1) ((nn, p) :: rest) seen = bfsAux g f rest seen := by
          simp [bfsAux, hseen]
        rw [heq]
        refine ih rest seen ?_ (bfsInv_skip hWF hInv hseen)
        rw [bfsBound_cons] at hb
        omega
      · cases hnode : g.nodes[nn]? with
        | none =>
          have heq : bfsAux g (f + 1) ((nn, p) :: rest) seen =
              bfsAux g f rest (nn :: seen) := by
            simp [bfsAux, hseen, hnode]
          rw [heq]
          refine ih rest (nn :: seen) ?_ (bfsInv_invalid hWF hInv hseen hnode)
          have hmono := Nat.mul_le_mul_right g.edges.length (countUnseen_cons_le g nn seen)
          rw [bfsBound_cons] at hb
          unfold bfsBound at *
          omega
        | some node =>
          cases node with
          | root =>
            have heq : bfsAux g (f + 1) ((nn, p) :: rest) seen =
                some (some p.reverse.dropLast) := by
              simp [bfsAux, hseen, hnode]
            rw [heq]
            constructor
            · intro steps h
              have hsteps : p.reverse.dropLast = steps := by
                injection h with h1
                injection h1 with h2
              subst hsteps
              obtain ⟨ys, hw0, hsub⟩ := hInv.entries (nn, p) (List.mem_cons_self _ _)
              have hw : EntryWalkL g t nn ys p := hw0
              rcases entryWalkL_shape hw with ⟨hys0, hnt, hp0⟩ | ⟨zs, hyszs, htzs⟩
              · rw [hnt] at hnode
                rw [htDist] at hnode
                injection hnode with hcc
                exact ResolutionGraphNode.noConfusion hcc
              · have hlen : ys.length = p.length := entryWalkL_length hw
                have hmap : p = ys.map (nodeStep g) := entryWalkL_map hw
                have hreach : Reaches g t nn ys.length := entryWalkL_reaches hw
                have hdists := entryWalkL_dist hw
                have hplen : p.length = zs.length + 1 := by
                  rw [← hlen, hyszs]
                  simp
                have hrr : ReachRoot g t p.length :=
                  ⟨nn, by rw [← hlen]; exact hreach, hnode⟩
                have hsl : (p.reverse.dropLast).length = zs.length := by
                  simp only [List.length_dropLast, List.length_reverse]
                  omega
                refine ⟨?_, ?_, ?_⟩
                · rw [hsl, ← hplen]
                  exact hrr
                · intro k hk
                  by_contra hcon
                  push_neg at hcon
                  obtain ⟨r, hrch, hroot⟩ := hk
                  have hrs : r ∈ seen :=
                    hInv.frontier (nn, p) rfl r k hrch (by show k < p.length; omega)
                  exact hInv.noRoot r hrs hroot
                · refine ⟨zs, ?_, htzs, ?_⟩
                  · rw [hmap, hyszs, List.map_cons, List.reverse_cons, List.dropLast_concat]
                  · intro z hz
                    exact hdists z (by rw [hyszs]; exact List.mem_cons_of_mem t hz)
            · intro h
              injection h with h1
              exact Option.noConfusion h1
          | dist dd =>
            have heq : bfsAux g (f + 1) ((nn, p) :: rest) seen =
                bfsAux g f (rest ++ (incomingNeighbors g nn).map
                  (fun m => (m, p ++ [DerivationStep.mk dd.name dd.version]))) (nn :: seen) := by
              simp [bfsAux, hseen, hnode]
            rw [heq]
            refine ih _ (nn :: seen) ?_ (bfsInv_expand hWF hInv hseen hnode)
            have hvalid : nn < g.nodes.length := (List.getElem?_eq_some.mp hnode).1
            have hcu : countUnseen g seen = countUnseen g (nn :: seen) + 1 :=
              countUnseen_cons_eq g nn seen hvalid hseen
            have hlen2 : (rest ++ (incomingNeighbors g nn).map
                (fun m => (m, p ++ [DerivationStep.mk dd.name dd.version]))).length ≤
                rest.length + g.edges.length := by
              rw [List.length_append, List.length_map]
              have := incoming_length_le g nn
              omega
            rw [bfsBound_cons] at hb
            unfold bfsBound at *
            have h1 : countUnseen g (nn :: seen) * g.edges.length + g.edges.length =
                countUnseen g seen * g.edges.length := by
              rw [hcu]
              ring
            omega

end UvDerivation


namespace UvDerivation

/-! ## Consequences at the level of `from_graph` -/

theorem findTargetNode_dist (g : ResolutionGraph) (target t : Nat)
    (h : findTargetNode g target = some t) :
    ∃ d, g.nodes[t]? = some (ResolutionGraphNode.dist d) := by
  unfold findTargetNode at h
  have hp := List.find?_some h
  unfold matchesTarget at hp
  cases hnode : g.nodes[t]? with
  | none => rw [hnode] at hp; exact Bool.noConfusion hp
  | some node =>
    cases node with
    | root => rw [hnode] at hp; exact Bool.noConfusion hp
    | dist d => exact ⟨d, rfl⟩

theorem fromGraph_eq_of_find (g : ResolutionGraph) (target t : Nat)
    (hfind : findTargetNode g target = some t) :
    fromGraph g target =
      match bfsAux g (bfsBound g [(t, [])] []) [(t, [])] [] with
      | none => Except.error "bfs fuel exhausted"
      | some none => Except.ok none
      | some (some steps) => Except.ok (some (DerivationChain.fromSteps steps)) := by
  unfold fromGraph
  rw [hfind]

theorem fromGraph_cases (g : ResolutionGraph) (target t : Nat) (hWF : g.WFEdges)
    (hfind : findTargetNode g target = some t) :
    (∀ c, fromGraph g target = Except.ok (some c) → GraphFound g t c.steps) ∧
    (fromGraph g target = Except.ok none → ∀ k, ¬ ReachRoot g t k) ∧
    (∃ o, fromGraph g target = Except.ok o) := by
  obtain ⟨dq, htDist⟩ := findTargetNode_dist g target t hfind
  have hmaster := bfs_master g t hWF dq htDist (bfsBound g [(t, [])] []) [(t, [])] []
    (Nat.le_refl _) (bfsInv_init g t)
  have hne := (bfsAux_stable g [(t, [])] [] (bfsBound g [(t, [])] []) (Nat.le_refl _)).2
  rw [fromGraph_eq_of_find g target t hfind]
  cases hbfs : bfsAux g (bfsBound g [(t, [])] []) [(t, [])] [] with
  | none => exact absurd hbfs hne
  | some o =>
    cases o with
    | none =>
      refine ⟨?_, ?_, ⟨none, rfl⟩⟩
      · intro c hc
        injection hc with h1
        exact Option.noConfusion h1
      · intro _ k
        exact hmaster.2 hbfs k
    | some steps =>
      refine ⟨?_, ?_, ⟨some (DerivationChain.fromSteps steps), rfl⟩⟩
      · intro c hc
        have hcs : DerivationChain.fromSteps steps = c := by
          injection hc with h1
          injection h1 with h2
        rw [← hcs]
        exact hmaster.1 steps hbfs
      · intro hc
        injection hc with h1
        exact Option.noConfusion h1

/-- C1: for a reachable target, `from_graph` returns the shortest ancestry
chain: the chain's edge count `c.len + 1` is the minimal walk length
`kmin`, so the chain's length equals the (minimal) ancestry path node count
`kmin + 1` minus 2; and on the scenario graph Root → A==1.0 → B==2.0 →
C==3.0, querying C, B and A returns `[A==1.0, B==2.0]`, `[A==1.0]` and `[]`
respectively. -/
theorem claim_C1 :
    (∀ (g : ResolutionGraph) (target t k0 : Nat), g.WFEdges →
      findTargetNode g target = some t → ReachRoot g t k0 →
      ∃ c kmin, fromGraph g target = Except.ok (some c) ∧ ReachRoot g t kmin ∧
        (∀ k, ReachRoot g t k → kmin ≤ k) ∧ c.len + 1 = kmin ∧ c.len + 2 = kmin + 1) ∧
    fromGraph gScenario 3 = Except.ok (some (DerivationChain.mk
      [DerivationStep.mk "A" "1.0", DerivationStep.mk "B" "2.0"])) ∧
    fromGraph gScenario 2 = Except.ok (some (DerivationChain.mk [DerivationStep.mk "A" "1.0"])) ∧
    fromGraph gScenario 1 = Except.ok (some (DerivationChain.mk [])) := by
  refine ⟨?_, rfl, rfl, rfl⟩
  intro g target t k0 hWF hfind hreach
  obtain ⟨hsome, hnone, o, ho⟩ := fromGraph_cases g target t hWF hfind
  cases o with
  | none => exact absurd hreach (hnone ho k0)
  | some c =>
    obtain ⟨hrr, hmin, _⟩ := hsome c ho
    exact ⟨c, c.steps.length + 1, ho, hrr, hmin, rfl, rfl⟩

/-- Witness for C1: the scenario graph, querying C (node 3), which reaches
Root in three steps. -/
theorem claim_C1_witness :
    gScenario.WFEdges ∧ findTargetNode gScenario 3 = some 3 ∧ ReachRoot gScenario 3 3 ∧
    ∃ c kmin, fromGraph gScenario 3 = Except.ok (some c) ∧ ReachRoot gScenario 3 kmin ∧
      (∀ k, ReachRoot gScenario 3 k → kmin ≤ k) ∧ c.len + 1 = kmin ∧ c.len + 2 = kmin + 1 := by
  have hreach : ReachRoot gScenario 3 3 := by
    refine ⟨0, ?_, rfl⟩
    have h1 : Reaches gScenario 3 3 0 := Reaches.refl
    have h2 : Reaches gScenario 3 2 1 := Reaches.tail h1 (by decide)
    have h3 : Reaches gScenario 3 1 2 := Reaches.tail h2 (by decide)
    exact Reaches.tail h3 (by decide)
  exact ⟨by decide, by decide, hreach,
    claim_C1.1 gScenario 3 3 3 (by decide) (by decide) hreach⟩

/-- Counterexample for C5 as stated: on a graph whose target distribution is
present but disconnected from Root, `from_graph` does not fail with an
invariant violation; it returns the ordinary `None` (`Except.ok none`). -/
theorem claim_C5_counterexample :
    findTargetNode gDisconnected 1 = some 1 ∧
    fromGraph gDisconnected 1 = Except.ok none ∧
    fromGraph gDisconnected 1 ≠
      Except.error "every distribution in the resolution graph should be present" ∧
    fromGraph gDisconnected 1 ≠ Except.ok (some (DerivationChain.mk [])) := by
  refine ⟨by decide, rfl, ?_, ?_⟩
  · intro h
    rw [show fromGraph gDisconnected 1 = Except.ok none from rfl] at h
    exact Except.noConfusion h
  · intro h
    rw [show fromGraph gDisconnected 1 = Except.ok none from rfl] at h
    injection h with h1
    exact Option.noConfusion h1

/-- C5 (amended): when the target is present but Root is unreachable from
it, `from_graph` returns the normal `None` (`Except.ok none`) — which is
distinct from an empty chain `Some []` — rather than panicking. -/
theorem claim_C5 (g : ResolutionGraph) (target t : Nat) (hWF : g.WFEdges)
    (hfind : findTargetNode g target = some t) (hnone : ∀ k, ¬ ReachRoot g t k) :
    fromGraph g target = Except.ok none := by
  obtain ⟨hsome, _, o, ho⟩ := fromGraph_cases g target t hWF hfind
  cases o with
  | none => exact ho
  | some c =>
    exact absurd (hsome c ho).1 (hnone _)

/-- Witness for C5 (amended) at the disconnected graph. -/
theorem claim_C5_witness :
    gDisconnected.WFEdges ∧ findTargetNode gDisconnected 1 = some 1 ∧
    (∀ k, ¬ ReachRoot gDisconnected 1 k) ∧ fromGraph gDisconnected 1 = Except.ok none := by
  have hnr : ∀ k, ¬ ReachRoot gDisconnected 1 k := by
    intro k hk
    obtain ⟨r, hrch, hroot⟩ := hk
    cases hrch with
    | refl => exact absurd hroot (by unfold isRootNode; decide)
    | tail hr' he => exact absurd he (by simp [gDisconnected])
  exact ⟨by decide, by decide, hnr, claim_C5 gDisconnected 1 1 (by decide) (by decide) hnr⟩

/-- C3: a chain returned by either finder contains a step for neither the
Root package nor the queried target itself.  For `from_graph` the chain's
steps come exactly from distribution nodes other than the located target
node (the Root node contributes no step).  For `from_state` (under the
solver's acyclicity invariant) the chain is the post-processing of the raw
path actually found by the search: no entry of that path has the queried
package as its requirer, and every chain step originates in a path entry
whose requirer carries the step's name — hence is not the (nameless) root
package and not the queried package. -/
theorem claim_C3 :
    (∀ (g : ResolutionGraph) (target : Nat) (c : DerivationChain), g.WFEdges →
      fromGraph g target = Except.ok (some c) →
      ∃ (t : Nat) (zs : List Nat), findTargetNode g target = some t ∧
        c.steps = (zs.map (nodeStep g)).reverse ∧ t ∉ zs ∧
        ∀ z ∈ zs, ∃ d, g.nodes[z]? = some (ResolutionGraphNode.dist d)) ∧
    (∀ (state : SolverState) (rank : PubGrubPackage → Nat) (package : PubGrubPackage)
      (version : Version) (fuel : Nat) (c : DerivationChain), Ranked state rank →
      fromState fuel package version state = some (some c) →
      ∃ path : List PathEntry,
        fillCompletePath state state.selectedDependencies fuel package version [] =
          some (true, path) ∧
        c.steps = pathToSteps path ∧
        (∀ e ∈ path, e.p1 ≠ package) ∧
        (∀ s ∈ c.steps, ∃ e ∈ path, PubGrubPackage.name e.p1 = some s.name ∧
          s.version = e.ver ∧ e.p1 ≠ PubGrubPackage.root ∧ e.p1 ≠ package)) := by
  constructor
  · intro g target c hWF h
    cases hfind : findTargetNode g target with
    | none =>
      unfold fromGraph at h
      rw [hfind] at h
      exact Except.noConfusion h
    | some t =>
      obtain ⟨hsome, _, _⟩ := fromGraph_cases g target t hWF hfind
      obtain ⟨_, _, zs, hsteps, htz, hdist⟩ := hsome c h
      exact ⟨t, zs, rfl, hsteps, htz, hdist⟩
  · intro state rank package version fuel c hr h
    exact fromState_steps_sources state rank package version fuel c hr h

/-- Witness for C3: both finders at concrete inputs (the scenario graph
querying C, and the solver state whose raw path passes through unnamed
packages). -/
theorem claim_C3_witness :
    gScenario.WFEdges ∧
    fromGraph gScenario 3 = Except.ok (some (DerivationChain.mk
      [DerivationStep.mk "A" "1.0", DerivationStep.mk "B" "2.0"])) ∧
    (∃ (t : Nat) (zs : List Nat), findTargetNode gScenario 3 = some t ∧
      (DerivationChain.mk [DerivationStep.mk "A" "1.0",
        DerivationStep.mk "B" "2.0"]).steps = (zs.map (nodeStep gScenario)).reverse ∧
      t ∉ zs ∧ ∀ z ∈ zs, ∃ d, gScenario.nodes[z]? = some (ResolutionGraphNode.dist d)) ∧
    Ranked stUnnamed rankUnnamed ∧
    fromState 4 pkgX "1" stUnnamed =
      some (some (DerivationChain.mk [DerivationStep.mk "a" "1.0"])) ∧
    (∃ path : List PathEntry,
      fillCompletePath stUnnamed stUnnamed.selectedDependencies 4 pkgX "1" [] =
        some (true, path) ∧
      (DerivationChain.mk [DerivationStep.mk "a" "1.0"]).steps = pathToSteps path ∧
      (∀ e ∈ path, e.p1 ≠ pkgX) ∧
      (∀ s ∈ (DerivationChain.mk [DerivationStep.mk "a" "1.0"]).steps,
        ∃ e ∈ path, PubGrubPackage.name e.p1 = some s.name ∧
          s.version = e.ver ∧ e.p1 ≠ PubGrubPackage.root ∧ e.p1 ≠ pkgX)) := by
  have hrank : Ranked stUnnamed rankUnnamed := by
    intro inc hmem p1 v1 p2 v2 hk
    fin_cases hmem <;>
      · dsimp only at hk
        injection hk with h1 h2 h3 h4
        subst h1
        subst h3
        decide
  refine ⟨by decide, rfl, ?_, hrank, rfl, ?_⟩
  · exact claim_C3.1 gScenario 3 _ (by decide) rfl
  · exact claim_C3.2 stUnnamed rankUnnamed pkgX "1" 4 _ hrank rfl

/-- C8: on any finite graph, cyclic or otherwise, the BFS loop terminates:
from any state, its result stabilises once the fuel reaches `bfsBound`
(queue length plus one expansion of at most `edges.length` pushes per
unseen node), so the seen-set bounds the total work by the node and edge
counts. -/
theorem claim_C8 (g : ResolutionGraph) (queue : List QEntry) (seen : List Nat) (fuel : Nat)
    (h : bfsBound g queue seen ≤ fuel) :
    bfsAux g fuel queue seen = bfsAux g (bfsBound g queue seen) queue seen ∧
      bfsAux g fuel queue seen ≠ none :=
  bfsAux_stable g queue seen fuel h

/-- Witness for C8 on the cyclic graph `gCyclic` (A and B depend on each
other): the bound evaluates to 11, and running with larger fuel gives the
same, non-exhausted, result. -/
theorem claim_C8_witness :
    bfsBound gCyclic [(1, [])] [] ≤ 20 ∧
    (bfsAux gCyclic 20 [(1, [])] [] = bfsAux gCyclic (bfsBound gCyclic [(1, [])] []) [(1, [])] [] ∧
      bfsAux gCyclic 20 [(1, [])] [] ≠ none) :=
  ⟨by decide, claim_C8 gCyclic [(1, [])] [] 20 (by decide)⟩

end UvDerivation
